import Mathlib

/-!
# Verification of the offset-aware bitmap operation kernels

A shallow embedding of `cpp/src/arrow/util/bitmap_ops.cc`: population count,
copy/invert transfer, equality, and the AND/OR/XOR combinators over packed
bit-vectors with arbitrary bit offsets.

Byte buffers are modelled as total functions `Nat → Nat`; a read through
`loadByte` reduces modulo 256, reflecting that `uint8_t` storage always holds
values in `[0, 256)`.  Bits are LSB-first within each byte and words are
loaded little-endian, as the layout contract fixes.  Primitives that live in
headers outside the translated file (`BitUtil`, `BitmapReader`/`BitmapWriter`,
`BitmapWordAlign`, `SafeLoadAs`/`SafeStore`, the allocator) are modelled from
the specification and are marked as such.
-/

namespace ArrowBitmap

/-- A byte buffer: bytes indexed from 0.  Stored values are reduced modulo 256
on every read, so the model never depends on out-of-range junk. -/
abbrev Buf := Nat → Nat

/-- Read one byte; a `uint8_t` read always yields a value in `[0, 256)`. -/
def loadByte (b : Buf) (i : Nat) : Nat := b i % 256

/-- Write one byte. -/
def writeByte (b : Buf) (i v : Nat) : Buf := fun j => if j = i then v else b j

/-- Modelled from the spec: `BitUtil::GetBit` — bit `i` of a buffer is
`(buf[i/8] >> (i%8)) & 1`, LSB-first within each byte (spec §3, §4.1). -/
def getBit (b : Buf) (i : Nat) : Bool := Nat.testBit (loadByte b (i / 8)) (i % 8)

/-- Modelled from the spec: `BitUtil::SetBit` sets one bit (spec §4.1). -/
def setBit (b : Buf) (i : Nat) : Buf :=
  writeByte b (i / 8) (loadByte b (i / 8) ||| (1 <<< (i % 8)))

/-- Modelled from the spec: `BitUtil::ClearBit` clears one bit (spec §4.1). -/
def clearBit (b : Buf) (i : Nat) : Buf :=
  writeByte b (i / 8) (loadByte b (i / 8) &&& (255 ^^^ (1 <<< (i % 8))))

/-- Write one bit: `Set()` when the value is true, `Clear()` otherwise,
mirroring the reader/writer loops of the source. -/
def assignBit (b : Buf) (i : Nat) (v : Bool) : Buf :=
  if v then setBit b i else clearBit b i

/-- Modelled from the spec: `BitUtil::BytesForBits(n) = (n+7)/8` (spec §4.1). -/
def bytesForBits (n : Nat) : Nat := (n + 7) / 8

/-- Little-endian read of `n` bytes starting at byte `p`. -/
def loadLE (b : Buf) (p : Nat) : Nat → Nat
  | 0 => 0
  | n + 1 => loadByte b p + 256 * loadLE b (p + 1) n

/-- Modelled from the spec: `ToLittleEndian(SafeLoadAs<uint64_t>(p))` — an
eight-byte little-endian load, so word bit `k` is buffer bit `8p + k`
(spec §4.1, §9). -/
def loadWord (b : Buf) (p : Nat) : Nat := loadLE b p 8

/-- Modelled from the spec: `SafeStore(p, FromLittleEndian(w))` — an eight-byte
little-endian store (spec §4.1). -/
def storeWord (b : Buf) (p : Nat) (w : Nat) : Buf :=
  fun j => if p ≤ j ∧ j < p + 8 then (w >>> (8 * (j - p))) % 256 else b j

/-- Complement of a `uint64_t` value (`~w`). -/
def compl64 (w : Nat) : Nat := w ^^^ (2 ^ 64 - 1)

/-- The shift-merge of two adjacent words:
`shift == 0 ? current : (current >> shift) | (next << (64 - shift))`, with the
left shift wrapping modulo `2^64` as `uint64_t` arithmetic does. -/
def shiftWord (current next shift : Nat) : Nat :=
  if shift = 0 then current
  else (current >>> shift) ||| ((next <<< (64 - shift)) % 2 ^ 64)

/-- The rotation `(word << k) | (word >> (64 - k))` in `uint64_t` arithmetic,
used before splitting an output word across two destination words. -/
def rotWord (w k : Nat) : Nat := ((w <<< k) % 2 ^ 64) ||| (w >>> (64 - k))

/-- The offset-splitting store shared by the transfer kernel and the unaligned
combinator: when the destination bit offset `ob` is nonzero, rotate the word,
read-modify-write two adjacent destination words with the mask `(1 << ob) - 1`,
and carry the second word into the next iteration; when `ob = 0`, a single
aligned store.  Returns the new memory and the carried word. -/
def storeShifted (ob : Nat) (mem : Buf) (pos carried w : Nat) : Buf × Nat :=
  if ob ≠ 0 then
    let mask := 2 ^ ob - 1
    let wrot := rotWord w ob
    let next := loadWord mem (pos + 8)
    let cur' := (carried &&& mask) ||| (wrot &&& compl64 mask)
    let next' := (next &&& compl64 mask) ||| (wrot &&& mask)
    (storeWord (storeWord mem pos cur') (pos + 8) next', next')
  else
    (storeWord mem pos w, carried)

/-! ## CountSetBits -/

/-- Ceiling-align `x` to a multiple of `a`. -/
def alignUp (x a : Nat) : Nat := (x + a - 1) / a * a

/-- Decomposition of a `(bit_offset, length)` span for 64-bit words. -/
structure BitmapWordAlignParams where
  leading_bits : Nat
  aligned_start : Nat
  aligned_words : Nat
  trailing_bit_offset : Nat

/-- Modelled from the spec: the alignment analyzer `BitmapWordAlign<8>`
(spec §2 layer 3, §3): leading bits until the next word-aligned boundary,
then aligned 64-bit words, then trailing bits.  The buffer base is taken to
be word-aligned, so aligned boundaries fall at bit positions that are
multiples of 64. -/
def bitmapWordAlign (bit_offset length : Nat) : BitmapWordAlignParams :=
  let bit_start := alignUp bit_offset 64
  let leading_bits := min length (bit_start - bit_offset)
  let aligned_words := (length - leading_bits) / 64
  { leading_bits := leading_bits
    aligned_start := bit_start / 8
    aligned_words := aligned_words
    trailing_bit_offset := bit_offset + leading_bits + 64 * aligned_words }

/-- Modelled from the spec: `BitUtil::PopCount` — the hardware population
count, i.e. the number of set bits of a 64-bit word (spec §4.4). -/
def popCount64 (w : Nat) : Nat := (List.range 64).countP (fun k => Nat.testBit w k)

/-- A `for (i = start; i < start + n; ++i) if (GetBit(data, i)) ++count;` loop. -/
def countBitsLoop (data : Buf) : Nat → Nat → Nat
  | _, 0 => 0
  | i, n + 1 => (if getBit data i then 1 else 0) + countBitsLoop data (i + 1) n

/-- The aligned-word popcount loop of `CountSetBits`. -/
def wordPopLoop (data : Buf) : Nat → Nat → Nat
  | _, 0 => 0
  | p, n + 1 => popCount64 (loadWord data p) + wordPopLoop data (p + 8) n

/-- `CountSetBits(data, bit_offset, length)`: per-bit count of the leading
bits, hardware popcount over the aligned words, per-bit count of the
trailing bits. -/
def CountSetBits (data : Buf) (bit_offset length : Nat) : Nat :=
  let p := bitmapWordAlign bit_offset length
  countBitsLoop data bit_offset p.leading_bits +
    wordPopLoop data p.aligned_start p.aligned_words +
    countBitsLoop data p.trailing_bit_offset (bit_offset + length - p.trailing_bit_offset)

/-! ## The transfer kernel (copy and invert) -/

/-- State carried by the word loop of the unaligned transfer path:
the advanced source and destination byte positions, the running
`data_current` and `dest_current` words, and the destination memory. -/
structure TransferState where
  srcPos : Nat
  dstPos : Nat
  dataCurrent : Nat
  destCurrent : Nat
  mem : Buf

/-- One iteration of the unaligned transfer word loop: load the next source
word, shift-merge it with the running word, invert if requested, and store it
with the offset-splitting pattern. -/
def transferWordStep (data : Buf) (bit_offset dest_bit_offset : Nat) (invert : Bool)
    (s : TransferState) : TransferState :=
  let srcPos := s.srcPos + 8
  let dataNext := loadWord data srcPos
  let word0 := shiftWord s.dataCurrent dataNext bit_offset
  let word := if invert then compl64 word0 else word0
  let r := storeShifted dest_bit_offset s.mem s.dstPos s.destCurrent word
  ⟨srcPos, s.dstPos + 8, dataNext, r.2, r.1⟩

/-- The unaligned transfer word loop, iterated `n` times. -/
def transferWordLoop (data : Buf) (bit_offset dest_bit_offset : Nat) (invert : Bool) :
    Nat → TransferState → TransferState
  | 0, s => s
  | n + 1, s =>
      transferWordLoop data bit_offset dest_bit_offset invert n
        (transferWordStep data bit_offset dest_bit_offset invert s)

/-- Modelled from the spec: the residual reader/writer pass of the transfer
kernel (spec §4.3 step 3, §4.2): read `n` bits starting at absolute bit
`src`, XOR each with `invert`, write at absolute bit `dst`; every
destination bit outside the written range is preserved. -/
def transferBitLoop (data : Buf) (invert : Bool) : Nat → Nat → Nat → Buf → Buf
  | _, _, 0, mem => mem
  | src, dst, n + 1, mem =>
      transferBitLoop data invert (src + 1) (dst + 1) n
        (assignBit mem dst (xor invert (getBit data src)))

/-- The byte loop of the aligned transfer fast path: `memcpy` when not
inverting, `dest[i] = ~data[byte_offset + i]` when inverting. -/
def byteTransferLoop (data : Buf) (invert : Bool) : Nat → Nat → Nat → Buf → Buf
  | _, _, 0, mem => mem
  | srcByte, dstByte, n + 1, mem =>
      byteTransferLoop data invert (srcByte + 1) (dstByte + 1) n
        (writeByte mem dstByte
          (if invert then loadByte data srcByte ^^^ 255 else loadByte data srcByte))

/-- The trailing-restore loop of the aligned fast path: bit `base + i` is
rewritten from bit `i + 8 - trailing_bits` of the snapshot byte `trail`. -/
def restoreTrailingLoop (trail trailing_bits base : Nat) : Nat → Nat → Buf → Buf
  | _, 0, mem => mem
  | i, n + 1, mem =>
      restoreTrailingLoop trail trailing_bits base (i + 1) n
        (assignBit mem (base + i) (Nat.testBit trail (i + 8 - trailing_bits)))

/-- `TransferBitmap<invert_bits, restore_trailing_bits>(data, offset, length,
dest_offset, dest)`: the unified copy/invert engine.  When either bit offset
is nonzero it runs the word-parallel shift-merge loop followed by the
reader/writer residual; otherwise the byte-wise fast path with the
trailing-bits policy. -/
def TransferBitmap (invert restore : Bool) (data : Buf) (offset length dest_offset : Nat)
    (dest : Buf) : Buf :=
  let byte_offset := offset / 8
  let bit_offset := offset % 8
  let dest_byte_offset := dest_offset / 8
  let dest_bit_offset := dest_offset % 8
  let num_bytes := bytesForBits length
  if bit_offset ≠ 0 ∨ dest_bit_offset ≠ 0 then
    let n_words := length / 64
    let iters := if n_words > 1 then n_words - 1 else 0
    let s0 : TransferState :=
      ⟨byte_offset, dest_byte_offset, loadWord data byte_offset,
        loadWord dest dest_byte_offset, dest⟩
    let s := transferWordLoop data bit_offset dest_bit_offset invert iters s0
    transferBitLoop data invert (8 * s.srcPos + bit_offset) (8 * s.dstPos + dest_bit_offset)
      (length - iters * 64) s.mem
  else
    let trailing_bits := num_bytes * 8 - length
    let trail :=
      if trailing_bits ≠ 0 ∧ restore then loadByte dest (dest_byte_offset + num_bytes - 1)
      else 0
    let mem := byteTransferLoop data invert byte_offset dest_byte_offset num_bytes dest
    if restore then
      restoreTrailingLoop trail trailing_bits (8 * dest_byte_offset + length) 0 trailing_bits mem
    else mem

/-- The trailing-zero loop of the allocating transfer variant: clear bits
`[start, start + n)`. -/
def clearBitsLoop : Nat → Nat → Buf → Buf
  | _, 0, mem => mem
  | i, n + 1, mem => clearBitsLoop (i + 1) n (clearBit mem i)

/-- The allocating `TransferBitmap<invert_bits>(pool, data, offset, length)`:
the pool (modelled from the spec, §6) returns a zero-initialized buffer; run
the in-place transfer at `dest_offset = 0` without trailing restore, then
clear bits `[length, 8 * bytes_for_bits(length))`. -/
def TransferBitmapNew (invert : Bool) (data : Buf) (offset length : Nat) : Buf :=
  let dest := TransferBitmap invert false data offset length 0 (fun _ => 0)
  clearBitsLoop length (bytesForBits length * 8 - length) dest

/-- `CopyBitmap(data, offset, length, dest, dest_offset, restore_trailing_bits)`. -/
def CopyBitmap (data : Buf) (offset length : Nat) (dest : Buf) (dest_offset : Nat)
    (restore_trailing_bits : Bool) : Buf :=
  TransferBitmap false restore_trailing_bits data offset length dest_offset dest

/-- `InvertBitmap(data, offset, length, dest, dest_offset)` — always restores
trailing bits. -/
def InvertBitmap (data : Buf) (offset length : Nat) (dest : Buf) (dest_offset : Nat) : Buf :=
  TransferBitmap true true data offset length dest_offset dest

/-- The allocating `CopyBitmap(pool, data, offset, length)`. -/
def CopyBitmapNew (data : Buf) (offset length : Nat) : Buf :=
  TransferBitmapNew false data offset length

/-- The allocating `InvertBitmap(pool, data, offset, length)`. -/
def InvertBitmapNew (data : Buf) (offset length : Nat) : Buf :=
  TransferBitmapNew true data offset length

/-! ## BitmapEquals -/

/-- Modelled from the spec: `memcmp` over `n` bytes compares byte-for-byte. -/
def bytesEqualLoop (left right : Buf) : Nat → Nat → Nat → Bool
  | _, _, 0 => true
  | lp, rp, n + 1 =>
      if loadByte left lp ≠ loadByte right rp then false
      else bytesEqualLoop left right (lp + 1) (rp + 1) n

/-- The per-bit comparison loop shared by both paths of `BitmapEquals`:
compare `n` bits starting at absolute bits `ls` and `rs`. -/
def equalsBitLoop (left right : Buf) : Nat → Nat → Nat → Bool
  | _, _, 0 => true
  | ls, rs, n + 1 =>
      if getBit left ls ≠ getBit right rs then false
      else equalsBitLoop left right (ls + 1) (rs + 1) n

/-- The unaligned word-comparison loop of `BitmapEquals`: re-form both operand
words with the shift-merge pattern and compare, `n` iterations. -/
def equalsWordLoop (left right : Buf) (left_offset right_offset : Nat) :
    Nat → Nat → Nat → Nat → Nat → Bool
  | _, _, _, _, 0 => true
  | lp, rp, lcur, rcur, n + 1 =>
      let lnext := loadWord left (lp + 8)
      let lword := shiftWord lcur lnext left_offset
      let rnext := loadWord right (rp + 8)
      let rword := shiftWord rcur rnext right_offset
      if lword ≠ rword then false
      else equalsWordLoop left right left_offset right_offset (lp + 8) (rp + 8) lnext rnext n

/-- `BitmapEquals(left, left_offset, right, right_offset, bit_length)`:
byte-aligned case via `memcmp` plus a bit tail, otherwise the word-parallel
comparison followed by a bit tail. -/
def BitmapEquals (left : Buf) (left_offset : Nat) (right : Buf) (right_offset : Nat)
    (bit_length : Nat) : Bool :=
  if left_offset % 8 = 0 ∧ right_offset % 8 = 0 then
    bytesEqualLoop left right (left_offset / 8) (right_offset / 8) (bit_length / 8) &&
      equalsBitLoop left right (left_offset + bit_length / 8 * 8)
        (right_offset + bit_length / 8 * 8) (bit_length - bit_length / 8 * 8)
  else
    let lp := left_offset / 8
    let rp := right_offset / 8
    let lo := left_offset % 8
    let ro := right_offset % 8
    let n_words := bit_length / 64
    let iters := if n_words > 1 then n_words - 1 else 0
    equalsWordLoop left right lo ro lp rp (loadWord left lp) (loadWord right rp) iters &&
      equalsBitLoop left right (8 * (lp + 8 * iters) + lo) (8 * (rp + 8 * iters) + ro)
        (bit_length - iters * 64)

/-! ## The binary combinators (AND / OR / XOR) -/

/-- The byte loop of `AlignedBitmapOp`: `out[i] = op(left[i], right[i])`. -/
def alignedOpLoop (bop : Nat → Nat → Nat) (left right : Buf) :
    Nat → Nat → Nat → Nat → Buf → Buf
  | _, _, _, 0, mem => mem
  | lp, rp, op, n + 1, mem =>
      alignedOpLoop bop left right (lp + 1) (rp + 1) (op + 1) n
        (writeByte mem op (bop (loadByte left lp) (loadByte right rp)))

/-- `AlignedBitmapOp`: all three offsets congruent mod 8; apply the bytewise
operator over `BytesForBits(length + left_offset % 8)` bytes starting at the
byte-truncated positions. -/
def AlignedBitmapOp (bop : Nat → Nat → Nat) (left : Buf) (left_offset : Nat) (right : Buf)
    (right_offset : Nat) (out : Buf) (out_offset length : Nat) : Buf :=
  alignedOpLoop bop left right (left_offset / 8) (right_offset / 8) (out_offset / 8)
    (bytesForBits (length + left_offset % 8)) out

/-- State carried by the word loop of `UnalignedBitmapOp`. -/
structure OpState where
  leftPos : Nat
  rightPos : Nat
  outPos : Nat
  leftWord0 : Nat
  rightWord0 : Nat
  outWord0 : Nat
  mem : Buf

/-- One iteration of the unaligned combinator word loop: shift-merge both
operands, apply the word operator, and store with the offset-splitting
pattern. -/
def opWordStep (left right : Buf) (left_offset right_offset out_offset : Nat)
    (bop : Nat → Nat → Nat) (s : OpState) : OpState :=
  let leftPos := s.leftPos + 8
  let leftWord1 := loadWord left leftPos
  let leftWord := shiftWord s.leftWord0 leftWord1 left_offset
  let rightPos := s.rightPos + 8
  let rightWord1 := loadWord right rightPos
  let rightWord := shiftWord s.rightWord0 rightWord1 right_offset
  let outWord := bop leftWord rightWord
  let r := storeShifted out_offset s.mem s.outPos s.outWord0 outWord
  ⟨leftPos, rightPos, s.outPos + 8, leftWord1, rightWord1, r.2, r.1⟩

/-- The unaligned combinator word loop, iterated `n` times. -/
def opWordLoop (left right : Buf) (left_offset right_offset out_offset : Nat)
    (bop : Nat → Nat → Nat) : Nat → OpState → OpState
  | 0, s => s
  | n + 1, s =>
      opWordLoop left right left_offset right_offset out_offset bop n
        (opWordStep left right left_offset right_offset out_offset bop s)

/-- Modelled from the spec: the residual two-reader/one-writer pass of the
unaligned combinator (spec §4.6, §4.2): apply the logical operator to `n`
pairs of bits starting at absolute bits `ls` and `rs`, writing at `ds`;
destination bits outside the written range are preserved. -/
def opBitLoop (left right : Buf) (lop : Bool → Bool → Bool) :
    Nat → Nat → Nat → Nat → Buf → Buf
  | _, _, _, 0, mem => mem
  | ls, rs, ds, n + 1, mem =>
      opBitLoop left right lop (ls + 1) (rs + 1) (ds + 1) n
        (assignBit mem ds (lop (getBit left ls) (getBit right rs)))

/-- The trip count of the unaligned combinator word loop: with
`min_offset = min(offsets mod 8)`, `min_nbytes = BytesForBits(length +
min_offset)` and `nwords = min_nbytes / 8`, the `do … while (nwords > 1)` loop
runs `nwords - 1` times when entered and zero times otherwise. -/
def opIters (left_offset right_offset out_offset length : Nat) : Nat :=
  let min_offset := min (left_offset % 8) (min (right_offset % 8) (out_offset % 8))
  let min_nbytes := bytesForBits (length + min_offset)
  let nwords := min_nbytes / 8
  if nwords > 1 then nwords - 1 else 0

/-- `UnalignedBitmapOp`: reduce the offsets mod 8, run the word-parallel loop
for `opIters` iterations, then the residual bit loop. -/
def UnalignedBitmapOp (bop : Nat → Nat → Nat) (lop : Bool → Bool → Bool) (left : Buf)
    (left_offset : Nat) (right : Buf) (right_offset : Nat) (out : Buf)
    (out_offset length : Nat) : Buf :=
  let lp := left_offset / 8
  let rp := right_offset / 8
  let op := out_offset / 8
  let lo := left_offset % 8
  let ro := right_offset % 8
  let ob := out_offset % 8
  let iters := opIters left_offset right_offset out_offset length
  let s0 : OpState := ⟨lp, rp, op, loadWord left lp, loadWord right rp, loadWord out op, out⟩
  let s := opWordLoop left right lo ro ob bop iters s0
  opBitLoop left right lop (8 * s.leftPos + lo) (8 * s.rightPos + ro) (8 * s.outPos + ob)
    (length - iters * 64) s.mem

/-- `BitmapOp(left, left_offset, right, right_offset, length, out_offset,
dest)`: the bytewise fast case when all three offsets are congruent mod 8,
otherwise the unaligned path. -/
def BitmapOp (bop : Nat → Nat → Nat) (lop : Bool → Bool → Bool) (left : Buf)
    (left_offset : Nat) (right : Buf) (right_offset length out_offset : Nat)
    (dest : Buf) : Buf :=
  if out_offset % 8 = left_offset % 8 ∧ out_offset % 8 = right_offset % 8 then
    AlignedBitmapOp bop left left_offset right right_offset dest out_offset length
  else
    UnalignedBitmapOp bop lop left left_offset right right_offset dest out_offset length

/-- The allocating `BitmapOp(pool, ...)`: the pool (modelled from the spec,
§6) returns a zero-initialized buffer of `length + out_offset` bits, then the
in-place form runs; no trailing cleanup is performed. -/
def BitmapOpNew (bop : Nat → Nat → Nat) (lop : Bool → Bool → Bool) (left : Buf)
    (left_offset : Nat) (right : Buf) (right_offset length out_offset : Nat) : Buf :=
  BitmapOp bop lop left left_offset right right_offset length out_offset (fun _ => 0)

/-- In-place `BitmapAnd` with `std::bit_and` / `std::logical_and`. -/
def BitmapAnd (left : Buf) (left_offset : Nat) (right : Buf)
    (right_offset length out_offset : Nat) (out : Buf) : Buf :=
  BitmapOp Nat.land (fun a b => a && b) left left_offset right right_offset length
    out_offset out

/-- In-place `BitmapOr` with `std::bit_or` / `std::logical_or`. -/
def BitmapOr (left : Buf) (left_offset : Nat) (right : Buf)
    (right_offset length out_offset : Nat) (out : Buf) : Buf :=
  BitmapOp Nat.lor (fun a b => a || b) left left_offset right right_offset length
    out_offset out

/-- In-place `BitmapXor` with `std::bit_xor` on words and on booleans. -/
def BitmapXor (left : Buf) (left_offset : Nat) (right : Buf)
    (right_offset length out_offset : Nat) (out : Buf) : Buf :=
  BitmapOp Nat.xor (fun a b => xor a b) left left_offset right right_offset length
    out_offset out

/-- Allocating `BitmapAnd`. -/
def BitmapAndNew (left : Buf) (left_offset : Nat) (right : Buf)
    (right_offset length out_offset : Nat) : Buf :=
  BitmapOpNew Nat.land (fun a b => a && b) left left_offset right right_offset length
    out_offset

/-- Allocating `BitmapOr`. -/
def BitmapOrNew (left : Buf) (left_offset : Nat) (right : Buf)
    (right_offset length out_offset : Nat) : Buf :=
  BitmapOpNew Nat.lor (fun a b => a || b) left left_offset right right_offset length
    out_offset

/-- Allocating `BitmapXor`. -/
def BitmapXorNew (left : Buf) (left_offset : Nat) (right : Buf)
    (right_offset length out_offset : Nat) : Buf :=
  BitmapOpNew Nat.xor (fun a b => xor a b) left left_offset right right_offset length
    out_offset

/-! ## Slow bit-at-a-time references and bit-range views -/

/-- The slow transfer reference: the pure reader/writer bit loop over the whole
range (the residual pass of the source, run from the start). -/
def transferSlow (invert : Bool) (data : Buf) (offset length dest_offset : Nat)
    (dest : Buf) : Buf :=
  transferBitLoop data invert offset dest_offset length dest

/-- The slow equality reference: the per-bit comparison loop over the whole
range. -/
def equalsSlow (left : Buf) (left_offset : Nat) (right : Buf) (right_offset : Nat)
    (bit_length : Nat) : Bool :=
  equalsBitLoop left right left_offset right_offset bit_length

/-- The slow combinator reference: the two-reader/one-writer bit loop over the
whole range. -/
def opSlow (lop : Bool → Bool → Bool) (left : Buf) (left_offset : Nat) (right : Buf)
    (right_offset length out_offset : Nat) (out : Buf) : Buf :=
  opBitLoop left right lop left_offset right_offset out_offset length out

/-- The list of bits of a buffer on the range `[off, off + len)`. -/
def bitsRange (b : Buf) (off len : Nat) : List Bool :=
  (List.range len).map fun i => getBit b (off + i)

/-- The reference population count: the number of indices in
`[off, off + len)` whose bit is set. -/
def countRef (b : Buf) (off len : Nat) : Nat :=
  (List.range len).countP fun i => getBit b (off + i)

/-- The reference equality predicate: bit `lo + i` of `left` equals bit
`ro + i` of `right` for every `i < n`. -/
def equalsRef (left : Buf) (lo : Nat) (right : Buf) (ro n : Nat) : Bool :=
  (List.range n).all fun i => getBit left (lo + i) == getBit right (ro + i)

/-- A concrete buffer from a list of bytes; bytes past the end read as zero. -/
def mkBuf (l : List Nat) : Buf := fun i => l.getD i 0

/-! ## Basic byte and bit lemmas -/

lemma loadByte_lt (b : Buf) (i : Nat) : loadByte b i < 256 :=
  Nat.mod_lt _ (by norm_num)

lemma loadByte_lt' (b : Buf) (i : Nat) : loadByte b i < 2 ^ 8 := by
  have := loadByte_lt b i; omega

lemma testBit_loadByte_ge (b : Buf) (i k : Nat) (hk : 8 ≤ k) :
    Nat.testBit (loadByte b i) k = false :=
  Nat.testBit_eq_false_of_lt
    (lt_of_lt_of_le (loadByte_lt' b i) (Nat.pow_le_pow_right (by norm_num) hk))

lemma getBit_eq_testBit (b : Buf) (p k : Nat) (hk : k < 8) :
    getBit b (8 * p + k) = Nat.testBit (loadByte b p) k := by
  have h1 : (8 * p + k) / 8 = p := by omega
  have h2 : (8 * p + k) % 8 = k := by omega
  rw [getBit, h1, h2]

lemma loadLE_lt (b : Buf) : ∀ n p, loadLE b p n < 2 ^ (8 * n)
  | 0, _ => by simp [loadLE]
  | n + 1, p => by
      have h1 := loadByte_lt b p
      have h2 := loadLE_lt b n (p + 1)
      have h3 : 2 ^ (8 * (n + 1)) = 2 ^ (8 * n) * 256 := by
        rw [show 8 * (n + 1) = 8 * n + 8 by ring, pow_add]; norm_num
      simp only [loadLE]; omega

lemma testBit_loadLE (b : Buf) : ∀ n p k, k < 8 * n →
    Nat.testBit (loadLE b p n) k = getBit b (8 * p + k)
  | 0, _, _, hk => by omega
  | n + 1, p, k, _ => by
      have hb := loadByte_lt' b p
      have he : loadLE b p (n + 1) = 2 ^ 8 * loadLE b (p + 1) n + loadByte b p := by
        simp only [loadLE]; ring
      rw [he, Nat.testBit_mul_pow_two_add _ hb]
      by_cases h : k < 8
      · rw [if_pos h, getBit_eq_testBit b p k h]
      · rw [if_neg h, testBit_loadLE b n (p + 1) (k - 8) (by omega)]
        congr 1
        omega

lemma testBit_loadLE_ge (b : Buf) (n p k : Nat) (hk : 8 * n ≤ k) :
    Nat.testBit (loadLE b p n) k = false :=
  Nat.testBit_eq_false_of_lt
    (lt_of_lt_of_le (loadLE_lt b n p) (Nat.pow_le_pow_right (by norm_num) hk))

lemma loadWord_lt (b : Buf) (p : Nat) : loadWord b p < 2 ^ 64 := loadLE_lt b 8 p

lemma testBit_loadWord (b : Buf) (p k : Nat) (hk : k < 64) :
    Nat.testBit (loadWord b p) k = getBit b (8 * p + k) :=
  testBit_loadLE b 8 p k (by omega)

lemma testBit_loadWord_ge (b : Buf) (p k : Nat) (hk : 64 ≤ k) :
    Nat.testBit (loadWord b p) k = false :=
  testBit_loadLE_ge b 8 p k (by omega)

lemma getBit_storeWord (b : Buf) (p w i : Nat) :
    getBit (storeWord b p w) i =
      if 8 * p ≤ i ∧ i < 8 * p + 64 then Nat.testBit w (i - 8 * p) else getBit b i := by
  have hd := Nat.div_add_mod i 8
  have hm : i % 8 < 8 := Nat.mod_lt _ (by norm_num)
  by_cases h : p ≤ i / 8 ∧ i / 8 < p + 8
  · rw [if_pos (by omega)]
    have hb : loadByte (storeWord b p w) (i / 8) = w >>> (8 * (i / 8 - p)) % 256 := by
      simp only [loadByte, storeWord, if_pos h]
      exact Nat.mod_mod_of_dvd _ dvd_rfl
    rw [getBit, hb, show (256 : Nat) = 2 ^ 8 by norm_num, Nat.testBit_mod_two_pow,
      Nat.testBit_shiftRight, decide_eq_true hm, Bool.true_and]
    congr 1
    omega
  · rw [if_neg (by omega), getBit, getBit]
    have hb : loadByte (storeWord b p w) (i / 8) = loadByte b (i / 8) := by
      simp only [loadByte, storeWord, if_neg h]
    rw [hb]

lemma loadWord_storeWord (b : Buf) (p w : Nat) :
    loadWord (storeWord b p w) p = w % 2 ^ 64 := by
  apply Nat.eq_of_testBit_eq
  intro k
  by_cases hk : k < 64
  · rw [testBit_loadWord _ _ _ hk, getBit_storeWord, if_pos (by omega),
      Nat.testBit_mod_two_pow, decide_eq_true hk, Bool.true_and]
    congr 1
    omega
  · rw [testBit_loadWord_ge _ _ _ (by omega), Nat.testBit_mod_two_pow]
    simp [hk]

lemma getBit_writeByte (b : Buf) (i v j : Nat) :
    getBit (writeByte b i v) j =
      if j / 8 = i then Nat.testBit v (j % 8) else getBit b j := by
  have hm : j % 8 < 8 := Nat.mod_lt _ (by norm_num)
  by_cases h : j / 8 = i
  · rw [if_pos h, getBit, loadByte, writeByte, if_pos h,
      show (256 : Nat) = 2 ^ 8 by norm_num, Nat.testBit_mod_two_pow,
      decide_eq_true hm, Bool.true_and]
  · rw [if_neg h, getBit, getBit]
    simp only [loadByte, writeByte, if_neg h]

lemma getBit_setBit (b : Buf) (i j : Nat) :
    getBit (setBit b i) j = if j = i then true else getBit b j := by
  have hdi := Nat.div_add_mod i 8
  have hdj := Nat.div_add_mod j 8
  have hmi : i % 8 < 8 := Nat.mod_lt _ (by norm_num)
  have hmj : j % 8 < 8 := Nat.mod_lt _ (by norm_num)
  rw [setBit, getBit_writeByte]
  by_cases h : j / 8 = i / 8
  · rw [if_pos h, Nat.testBit_lor, Nat.one_shiftLeft]
    by_cases hj : j = i
    · rw [if_pos hj, hj, Nat.testBit_two_pow_self, Bool.or_true]
    · rw [if_neg hj, Nat.testBit_two_pow_of_ne (by omega), Bool.or_false, getBit,
        show j % 8 = j % 8 from rfl, h]
  · rw [if_neg h, if_neg (by omega)]

lemma getBit_clearBit (b : Buf) (i j : Nat) :
    getBit (clearBit b i) j = if j = i then false else getBit b j := by
  have hdi := Nat.div_add_mod i 8
  have hdj := Nat.div_add_mod j 8
  have hmi : i % 8 < 8 := Nat.mod_lt _ (by norm_num)
  have hmj : j % 8 < 8 := Nat.mod_lt _ (by norm_num)
  rw [clearBit, getBit_writeByte]
  by_cases h : j / 8 = i / 8
  · rw [if_pos h, Nat.testBit_land, Nat.testBit_xor, Nat.one_shiftLeft,
      show (255 : Nat) = 2 ^ 8 - 1 by norm_num, Nat.testBit_two_pow_sub_one,
      decide_eq_true hmj]
    by_cases hj : j = i
    · rw [if_pos hj, hj, Nat.testBit_two_pow_self]
      simp
    · rw [if_neg hj, Nat.testBit_two_pow_of_ne (by omega), getBit, h]
      simp
  · rw [if_neg h, if_neg (by omega)]

lemma getBit_assignBit (b : Buf) (i : Nat) (v : Bool) (j : Nat) :
    getBit (assignBit b i v) j = if j = i then v else getBit b j := by
  cases v
  · rw [assignBit, if_neg (by simp), getBit_clearBit]
  · rw [assignBit, if_pos rfl, getBit_setBit]

/-! ## Word-level shift, rotate, complement -/

lemma shiftWord_lt (current next shift : Nat) (hc : current < 2 ^ 64) :
    shiftWord current next shift < 2 ^ 64 := by
  rw [shiftWord]
  split
  · exact hc
  · exact Nat.or_lt_two_pow
      (lt_of_le_of_lt (by rw [Nat.shiftRight_eq_div_pow]; exact Nat.div_le_self _ _) hc)
      (Nat.mod_lt _ (Nat.two_pow_pos 64))

lemma testBit_shiftWord (current next shift k : Nat) (hc : current < 2 ^ 64)
    (hs : shift < 8) (hk : k < 64) :
    Nat.testBit (shiftWord current next shift) k =
      if k + shift < 64 then Nat.testBit current (k + shift)
      else Nat.testBit next (k + shift - 64) := by
  rw [shiftWord]
  by_cases h0 : shift = 0
  · rw [if_pos h0, if_pos (by omega)]
    congr 1
    omega
  · rw [if_neg h0, Nat.testBit_lor, Nat.testBit_mod_two_pow, Nat.testBit_shiftLeft,
      Nat.testBit_shiftRight, decide_eq_true hk, Bool.true_and]
    by_cases h1 : k + shift < 64
    · rw [if_pos h1, decide_eq_false (by omega), Bool.false_and, Bool.or_false]
      congr 1
      omega
    · rw [if_neg h1,
        Nat.testBit_eq_false_of_lt
          (lt_of_lt_of_le hc (Nat.pow_le_pow_right (by norm_num) (by omega))),
        Bool.false_or, decide_eq_true (by omega : k ≥ 64 - shift), Bool.true_and]
      congr 1
      omega

lemma compl64_lt (w : Nat) (hw : w < 2 ^ 64) : compl64 w < 2 ^ 64 :=
  Nat.xor_lt_two_pow hw (by norm_num)

lemma testBit_compl64 (w k : Nat) (hk : k < 64) :
    Nat.testBit (compl64 w) k = ! Nat.testBit w k := by
  rw [compl64, Nat.testBit_xor, Nat.testBit_two_pow_sub_one, decide_eq_true hk]
  cases Nat.testBit w k <;> rfl

lemma rotWord_lt (w k : Nat) (hw : w < 2 ^ 64) : rotWord w k < 2 ^ 64 :=
  Nat.or_lt_two_pow (Nat.mod_lt _ (Nat.two_pow_pos 64))
    (lt_of_le_of_lt (by rw [Nat.shiftRight_eq_div_pow]; exact Nat.div_le_self _ _) hw)

lemma testBit_rotWord (w k j : Nat) (hw : w < 2 ^ 64) (h0 : 0 < k) (hk : k < 8)
    (hj : j < 64) :
    Nat.testBit (rotWord w k) j =
      if k ≤ j then Nat.testBit w (j - k) else Nat.testBit w (64 - k + j) := by
  rw [rotWord, Nat.testBit_lor, Nat.testBit_mod_two_pow, Nat.testBit_shiftLeft,
    Nat.testBit_shiftRight, decide_eq_true hj, Bool.true_and]
  by_cases h : k ≤ j
  · have h2 : Nat.testBit w (64 - k + j) = false :=
      Nat.testBit_eq_false_of_lt
        (lt_of_lt_of_le hw (Nat.pow_le_pow_right (by norm_num) (by omega)))
    rw [if_pos h, decide_eq_true (by omega : j ≥ k), Bool.true_and, h2, Bool.or_false]
  · rw [if_neg h, decide_eq_false (by omega), Bool.false_and, Bool.false_or]

/-! ## The offset-splitting store -/

lemma testBit_maskMerge (a b m k : Nat) (hk : k < 64) :
    Nat.testBit ((a &&& (2 ^ m - 1)) ||| (b &&& compl64 (2 ^ m - 1))) k =
      if k < m then Nat.testBit a k else Nat.testBit b k := by
  rw [Nat.testBit_lor, Nat.testBit_land, Nat.testBit_land, testBit_compl64 _ _ hk,
    Nat.testBit_two_pow_sub_one]
  by_cases h : k < m
  · simp [h]
  · simp [h]

lemma storeShifted_zero_fst (mem : Buf) (pos carried w : Nat) :
    (storeShifted 0 mem pos carried w).1 = storeWord mem pos w := by
  simp [storeShifted]

lemma storeShifted_zero_snd (mem : Buf) (pos carried w : Nat) :
    (storeShifted 0 mem pos carried w).2 = carried := by
  simp [storeShifted]

lemma storeShifted_pos (ob : Nat) (mem : Buf) (pos carried w : Nat) (hob : ob ≠ 0) :
    storeShifted ob mem pos carried w =
      (storeWord
        (storeWord mem pos
          ((carried &&& (2 ^ ob - 1)) ||| (rotWord w ob &&& compl64 (2 ^ ob - 1))))
        (pos + 8)
        ((loadWord mem (pos + 8) &&& compl64 (2 ^ ob - 1)) ||| (rotWord w ob &&& (2 ^ ob - 1))),
      (loadWord mem (pos + 8) &&& compl64 (2 ^ ob - 1)) ||| (rotWord w ob &&& (2 ^ ob - 1))) := by
  simp only [storeShifted, if_pos hob]

lemma getBit_storeShifted (ob : Nat) (mem : Buf) (pos carried w : Nat)
    (h0 : 0 < ob) (h8 : ob < 8) (hw : w < 2 ^ 64)
    (hcar : carried = loadWord mem pos) (j : Nat) :
    getBit (storeShifted ob mem pos carried w).1 j =
      if 8 * pos + ob ≤ j ∧ j < 8 * pos + ob + 64 then Nat.testBit w (j - (8 * pos + ob))
      else getBit mem j := by
  rw [storeShifted_pos ob mem pos carried w (by omega), getBit_storeWord, getBit_storeWord]
  by_cases hA : 8 * (pos + 8) ≤ j ∧ j < 8 * (pos + 8) + 64
  · rw [if_pos hA, Nat.lor_comm, testBit_maskMerge _ _ _ _ (by omega)]
    by_cases hB : j - 8 * (pos + 8) < ob
    · rw [if_pos hB, testBit_rotWord w ob _ hw h0 h8 (by omega), if_neg (by omega),
        if_pos (by omega)]
      congr 1
      omega
    · rw [if_neg hB, testBit_loadWord _ _ _ (by omega), if_neg (by omega)]
      congr 1
      omega
  · rw [if_neg hA]
    by_cases hC : 8 * pos ≤ j ∧ j < 8 * pos + 64
    · rw [if_pos hC, testBit_maskMerge _ _ _ _ (by omega)]
      by_cases hB : j - 8 * pos < ob
      · rw [if_pos hB, hcar, testBit_loadWord _ _ _ (by omega), if_neg (by omega)]
        congr 1
        omega
      · rw [if_neg hB, testBit_rotWord w ob _ hw h0 h8 (by omega), if_pos (by omega),
          if_pos (by omega)]
        congr 1
        omega
    · rw [if_neg hC, if_neg (by omega)]

lemma storeShifted_snd_pos (ob : Nat) (mem : Buf) (pos carried w : Nat)
    (h0 : 0 < ob) (hw : w < 2 ^ 64) :
    (storeShifted ob mem pos carried w).2 =
      loadWord (storeShifted ob mem pos carried w).1 (pos + 8) := by
  rw [storeShifted_pos ob mem pos carried w (by omega)]
  have hlt : (loadWord mem (pos + 8) &&& compl64 (2 ^ ob - 1)) |||
      (rotWord w ob &&& (2 ^ ob - 1)) < 2 ^ 64 :=
    Nat.or_lt_two_pow (lt_of_le_of_lt Nat.and_le_left (loadWord_lt mem (pos + 8)))
      (lt_of_le_of_lt Nat.and_le_left (rotWord_lt w ob hw))
  rw [loadWord_storeWord, Nat.mod_eq_of_lt hlt]

/-! ## Bit-at-a-time loop lemmas -/

lemma getBit_transferBitLoop (data : Buf) (invert : Bool) :
    ∀ n src dst mem j,
      getBit (transferBitLoop data invert src dst n mem) j =
        if dst ≤ j ∧ j < dst + n then xor invert (getBit data (src + (j - dst)))
        else getBit mem j
  | 0, src, dst, mem, j => by
      rw [transferBitLoop, if_neg (by omega)]
  | n + 1, src, dst, mem, j => by
      rw [transferBitLoop, getBit_transferBitLoop data invert n (src + 1) (dst + 1) _ j]
      by_cases h : dst + 1 ≤ j ∧ j < dst + 1 + n
      · rw [if_pos h, if_pos (by omega),
          show src + 1 + (j - (dst + 1)) = src + (j - dst) by omega]
      · rw [if_neg h, getBit_assignBit]
        by_cases h2 : j = dst
        · rw [if_pos h2, if_pos (by omega), show src + (j - dst) = src by omega]
        · rw [if_neg h2, if_neg (by omega)]

lemma getBit_opBitLoop (left right : Buf) (lop : Bool → Bool → Bool) :
    ∀ n ls rs ds mem j,
      getBit (opBitLoop left right lop ls rs ds n mem) j =
        if ds ≤ j ∧ j < ds + n
        then lop (getBit left (ls + (j - ds))) (getBit right (rs + (j - ds)))
        else getBit mem j
  | 0, ls, rs, ds, mem, j => by
      rw [opBitLoop, if_neg (by omega)]
  | n + 1, ls, rs, ds, mem, j => by
      rw [opBitLoop, getBit_opBitLoop left right lop n (ls + 1) (rs + 1) (ds + 1) _ j]
      by_cases h : ds + 1 ≤ j ∧ j < ds + 1 + n
      · rw [if_pos h, if_pos (by omega),
          show ls + 1 + (j - (ds + 1)) = ls + (j - ds) by omega,
          show rs + 1 + (j - (ds + 1)) = rs + (j - ds) by omega]
      · rw [if_neg h, getBit_assignBit]
        by_cases h2 : j = ds
        · rw [if_pos h2, if_pos (by omega), show ls + (j - ds) = ls by omega,
            show rs + (j - ds) = rs by omega]
        · rw [if_neg h2, if_neg (by omega)]

lemma getBit_byteTransferLoop (data : Buf) (invert : Bool) :
    ∀ n sB dB mem j,
      getBit (byteTransferLoop data invert sB dB n mem) j =
        if 8 * dB ≤ j ∧ j < 8 * (dB + n)
        then xor invert (getBit data (8 * sB + (j - 8 * dB)))
        else getBit mem j
  | 0, sB, dB, mem, j => by
      rw [byteTransferLoop, if_neg (by omega)]
  | n + 1, sB, dB, mem, j => by
      have hm : j % 8 < 8 := Nat.mod_lt _ (by norm_num)
      have hd := Nat.div_add_mod j 8
      rw [byteTransferLoop, getBit_byteTransferLoop data invert n (sB + 1) (dB + 1) _ j]
      by_cases h : 8 * (dB + 1) ≤ j ∧ j < 8 * (dB + 1 + n)
      · rw [if_pos h, if_pos (by omega),
          show 8 * (sB + 1) + (j - 8 * (dB + 1)) = 8 * sB + (j - 8 * dB) by omega]
      · rw [if_neg h, getBit_writeByte]
        by_cases h2 : j / 8 = dB
        · have hrange : 8 * dB ≤ j ∧ j < 8 * (dB + (n + 1)) := by omega
          have hVal :
              Nat.testBit (if invert then loadByte data sB ^^^ 255 else loadByte data sB)
                  (j % 8) =
                xor invert (getBit data (8 * sB + j % 8)) := by
            cases invert
            · rw [if_neg (by simp), Bool.false_xor, ← getBit_eq_testBit data sB (j % 8) hm]
            · rw [if_pos rfl, Bool.true_xor, Nat.testBit_xor,
                show (255 : Nat) = 2 ^ 8 - 1 by norm_num, Nat.testBit_two_pow_sub_one,
                decide_eq_true hm, ← getBit_eq_testBit data sB (j % 8) hm]
              cases getBit data (8 * sB + (j % 8)) <;> rfl
          rw [if_pos h2, hVal, if_pos hrange,
            show 8 * sB + (j - 8 * dB) = 8 * sB + j % 8 by omega]
        · rw [if_neg h2, if_neg (by omega)]

lemma getBit_restoreTrailingLoop (trail tb base : Nat) :
    ∀ n i mem j,
      getBit (restoreTrailingLoop trail tb base i n mem) j =
        if base + i ≤ j ∧ j < base + i + n
        then Nat.testBit trail (j - base + 8 - tb)
        else getBit mem j
  | 0, i, mem, j => by
      rw [restoreTrailingLoop, if_neg (by omega)]
  | n + 1, i, mem, j => by
      rw [restoreTrailingLoop, getBit_restoreTrailingLoop trail tb base n (i + 1) _ j]
      by_cases h : base + (i + 1) ≤ j ∧ j < base + (i + 1) + n
      · rw [if_pos h, if_pos (by omega)]
      · rw [if_neg h, getBit_assignBit]
        by_cases h2 : j = base + i
        · rw [if_pos h2, if_pos (by omega), show j - base + 8 - tb = i + 8 - tb by omega]
        · rw [if_neg h2, if_neg (by omega)]

lemma getBit_clearBitsLoop :
    ∀ n i mem j,
      getBit (clearBitsLoop i n mem) j =
        if i ≤ j ∧ j < i + n then false else getBit mem j
  | 0, i, mem, j => by
      rw [clearBitsLoop, if_neg (by omega)]
  | n + 1, i, mem, j => by
      rw [clearBitsLoop, getBit_clearBitsLoop n (i + 1) _ j]
      by_cases h : i + 1 ≤ j ∧ j < i + 1 + n
      · rw [if_pos h, if_pos (by omega)]
      · rw [if_neg h, getBit_clearBit]
        by_cases h2 : j = i
        · rw [if_pos h2, if_pos (by omega)]
        · rw [if_neg h2, if_neg (by omega)]

/-! ## The transfer kernel word loop -/

lemma testBit_transferWord (data : Buf) (invert : Bool) (sb sp k : Nat)
    (hsb : sb < 8) (hk : k < 64) :
    Nat.testBit
      (if invert then compl64 (shiftWord (loadWord data sp) (loadWord data (sp + 8)) sb)
        else shiftWord (loadWord data sp) (loadWord data (sp + 8)) sb) k =
      xor invert (getBit data (8 * sp + sb + k)) := by
  have hshift : Nat.testBit (shiftWord (loadWord data sp) (loadWord data (sp + 8)) sb) k =
      getBit data (8 * sp + sb + k) := by
    rw [testBit_shiftWord _ _ _ _ (loadWord_lt data sp) hsb hk]
    by_cases h : k + sb < 64
    · rw [if_pos h, testBit_loadWord _ _ _ h,
        show 8 * sp + (k + sb) = 8 * sp + sb + k by omega]
    · rw [if_neg h, testBit_loadWord _ _ _ (by omega),
        show 8 * (sp + 8) + (k + sb - 64) = 8 * sp + sb + k by omega]
  cases invert
  · rw [if_neg (by simp), Bool.false_xor, hshift]
  · rw [if_pos rfl, testBit_compl64 _ _ hk, hshift, Bool.true_xor]

lemma transferWord_lt (data : Buf) (invert : Bool) (sb sp : Nat) :
    (if invert then compl64 (shiftWord (loadWord data sp) (loadWord data (sp + 8)) sb)
      else shiftWord (loadWord data sp) (loadWord data (sp + 8)) sb) < 2 ^ 64 := by
  have h := shiftWord_lt (loadWord data sp) (loadWord data (sp + 8)) sb (loadWord_lt data sp)
  cases invert
  · rw [if_neg (by simp)]; exact h
  · rw [if_pos rfl]; exact compl64_lt _ h

lemma transferWordStep_spec (data : Buf) (sb db : Nat) (invert : Bool)
    (hsb : sb < 8) (hdb : db < 8) (s : TransferState)
    (hdata : s.dataCurrent = loadWord data s.srcPos)
    (hdest : db ≠ 0 → s.destCurrent = loadWord s.mem s.dstPos) :
    (transferWordStep data sb db invert s).srcPos = s.srcPos + 8 ∧
    (transferWordStep data sb db invert s).dstPos = s.dstPos + 8 ∧
    (transferWordStep data sb db invert s).dataCurrent =
      loadWord data (transferWordStep data sb db invert s).srcPos ∧
    (db ≠ 0 → (transferWordStep data sb db invert s).destCurrent =
      loadWord (transferWordStep data sb db invert s).mem
        (transferWordStep data sb db invert s).dstPos) ∧
    ∀ j, getBit (transferWordStep data sb db invert s).mem j =
      if 8 * s.dstPos + db ≤ j ∧ j < 8 * s.dstPos + db + 64
      then xor invert (getBit data (8 * s.srcPos + sb + (j - (8 * s.dstPos + db))))
      else getBit s.mem j := by
  simp only [transferWordStep, hdata]
  have hW := transferWord_lt data invert sb s.srcPos
  refine ⟨trivial, trivial, trivial, fun hdb0 => ?_, fun j => ?_⟩
  · exact storeShifted_snd_pos db s.mem s.dstPos s.destCurrent _ (by omega) hW
  · by_cases hdb0 : db = 0
    · subst hdb0
      rw [storeShifted_zero_fst, getBit_storeWord]
      by_cases hr : 8 * s.dstPos ≤ j ∧ j < 8 * s.dstPos + 64
      · have hr' : 8 * s.dstPos + 0 ≤ j ∧ j < 8 * s.dstPos + 0 + 64 := by omega
        rw [if_pos hr, if_pos hr',
          testBit_transferWord data invert sb s.srcPos _ hsb (by omega)]
        congr 2
      · have hr' : ¬(8 * s.dstPos + 0 ≤ j ∧ j < 8 * s.dstPos + 0 + 64) := by omega
        rw [if_neg hr, if_neg hr']
    · rw [getBit_storeShifted db s.mem s.dstPos s.destCurrent _ (by omega) hdb hW
        (hdest hdb0) j]
      by_cases hr : 8 * s.dstPos + db ≤ j ∧ j < 8 * s.dstPos + db + 64
      · rw [if_pos hr, if_pos hr,
          testBit_transferWord data invert sb s.srcPos _ hsb (by omega)]
      · rw [if_neg hr, if_neg hr]

lemma transferWordLoop_spec (data : Buf) (sb db : Nat) (invert : Bool)
    (hsb : sb < 8) (hdb : db < 8) :
    ∀ (n : Nat) (s : TransferState),
      s.dataCurrent = loadWord data s.srcPos →
      (db ≠ 0 → s.destCurrent = loadWord s.mem s.dstPos) →
      (transferWordLoop data sb db invert n s).srcPos = s.srcPos + 8 * n ∧
      (transferWordLoop data sb db invert n s).dstPos = s.dstPos + 8 * n ∧
      ∀ j, getBit (transferWordLoop data sb db invert n s).mem j =
        if 8 * s.dstPos + db ≤ j ∧ j < 8 * s.dstPos + db + 64 * n
        then xor invert (getBit data (8 * s.srcPos + sb + (j - (8 * s.dstPos + db))))
        else getBit s.mem j
  | 0, s, _, _ => by
      refine ⟨by simp [transferWordLoop], by simp [transferWordLoop], fun j => ?_⟩
      rw [if_neg (by omega)]
      simp [transferWordLoop]
  | n + 1, s, hdata, hdest => by
      obtain ⟨h1, h2, h3, h4, h5⟩ :=
        transferWordStep_spec data sb db invert hsb hdb s hdata hdest
      obtain ⟨g1, g2, g3⟩ :=
        transferWordLoop_spec data sb db invert hsb hdb n
          (transferWordStep data sb db invert s) h3 h4
      rw [h1] at g1
      rw [h2] at g2
      refine ⟨?_, ?_, fun j => ?_⟩
      · rw [transferWordLoop, g1]; ring
      · rw [transferWordLoop, g2]; ring
      · rw [transferWordLoop, g3 j, h1, h2, h5 j]
        by_cases hIH : 8 * (s.dstPos + 8) + db ≤ j ∧ j < 8 * (s.dstPos + 8) + db + 64 * n
        · rw [if_pos hIH, if_pos (by omega)]
          congr 2
          omega
        · rw [if_neg hIH]
          by_cases hst : 8 * s.dstPos + db ≤ j ∧ j < 8 * s.dstPos + db + 64
          · rw [if_pos hst, if_pos (by omega)]
          · rw [if_neg hst, if_neg (by omega)]

/-! ## Master characterization of the transfer kernel -/

/-- Every bit the transfer kernel leaves in the destination: bits in the
target range receive the (possibly inverted) source bits; on the byte-aligned
fast path without trailing restore, the remainder of the last byte also
receives source bits; every other bit is untouched. -/
lemma TransferBitmap_getBit (invert restore : Bool) (data : Buf)
    (offset length dest_offset : Nat) (dest : Buf) (j : Nat) :
    getBit (TransferBitmap invert restore data offset length dest_offset dest) j =
      if dest_offset ≤ j ∧ j < dest_offset + length
      then xor invert (getBit data (offset + (j - dest_offset)))
      else if restore = false ∧ offset % 8 = 0 ∧ dest_offset % 8 = 0 ∧
          dest_offset + length ≤ j ∧ j < dest_offset + 8 * bytesForBits length
        then xor invert (getBit data (offset + (j - dest_offset)))
        else getBit dest j := by
  have h8o : 8 * (offset / 8) + offset % 8 = offset := Nat.div_add_mod offset 8
  have h8d : 8 * (dest_offset / 8) + dest_offset % 8 = dest_offset :=
    Nat.div_add_mod dest_offset 8
  have hmo : offset % 8 < 8 := Nat.mod_lt _ (by norm_num)
  have hmd : dest_offset % 8 < 8 := Nat.mod_lt _ (by norm_num)
  have hnb : length ≤ 8 * bytesForBits length ∧ 8 * bytesForBits length < length + 8 := by
    unfold bytesForBits; omega
  by_cases hpath : offset % 8 ≠ 0 ∨ dest_offset % 8 ≠ 0
  · -- general (unaligned) path
    have hF : ¬(restore = false ∧ offset % 8 = 0 ∧ dest_offset % 8 = 0 ∧
        dest_offset + length ≤ j ∧ j < dest_offset + 8 * bytesForBits length) := by
      rintro ⟨_, hx, hy, _⟩
      rcases hpath with h | h
      · exact h hx
      · exact h hy
    rw [if_neg hF]
    simp only [TransferBitmap, if_pos hpath]
    obtain ⟨g1, g2, g3⟩ := transferWordLoop_spec data (offset % 8) (dest_offset % 8) invert
      hmo hmd (if length / 64 > 1 then length / 64 - 1 else 0)
      ⟨offset / 8, dest_offset / 8, loadWord data (offset / 8),
        loadWord dest (dest_offset / 8), dest⟩ rfl (fun _ => rfl)
    dsimp only at g1 g2 g3
    have hI : 64 * (if length / 64 > 1 then length / 64 - 1 else 0) ≤ length := by
      have := Nat.div_mul_le_self length 64
      by_cases h : length / 64 > 1
      · rw [if_pos h]; omega
      · rw [if_neg h]; omega
    rw [getBit_transferBitLoop, g1, g2, g3]
    by_cases hA : dest_offset ≤ j ∧
        j < dest_offset + 64 * (if length / 64 > 1 then length / 64 - 1 else 0)
    · rw [if_pos (show 8 * (dest_offset / 8) + dest_offset % 8 ≤ j ∧
          j < 8 * (dest_offset / 8) + dest_offset % 8 +
            64 * (if length / 64 > 1 then length / 64 - 1 else 0) by omega),
        if_neg (show ¬(8 * (dest_offset / 8 + 8 * (if length / 64 > 1 then length / 64 - 1
            else 0)) + dest_offset % 8 ≤ j ∧ j < 8 * (dest_offset / 8 +
            8 * (if length / 64 > 1 then length / 64 - 1 else 0)) + dest_offset % 8 +
            (length - (if length / 64 > 1 then length / 64 - 1 else 0) * 64)) by omega),
        if_pos (show dest_offset ≤ j ∧ j < dest_offset + length by omega)]
      congr 2
      omega
    · rw [if_neg (show ¬(8 * (dest_offset / 8) + dest_offset % 8 ≤ j ∧
          j < 8 * (dest_offset / 8) + dest_offset % 8 +
            64 * (if length / 64 > 1 then length / 64 - 1 else 0)) by omega)]
      by_cases hB : dest_offset ≤ j ∧ j < dest_offset + length
      · rw [if_pos (show 8 * (dest_offset / 8 + 8 * (if length / 64 > 1 then length / 64 - 1
            else 0)) + dest_offset % 8 ≤ j ∧ j < 8 * (dest_offset / 8 +
            8 * (if length / 64 > 1 then length / 64 - 1 else 0)) + dest_offset % 8 +
            (length - (if length / 64 > 1 then length / 64 - 1 else 0) * 64) by omega),
          if_pos hB]
        congr 2
        omega
      · rw [if_neg (show ¬(8 * (dest_offset / 8 + 8 * (if length / 64 > 1 then length / 64 - 1
            else 0)) + dest_offset % 8 ≤ j ∧ j < 8 * (dest_offset / 8 +
            8 * (if length / 64 > 1 then length / 64 - 1 else 0)) + dest_offset % 8 +
            (length - (if length / 64 > 1 then length / 64 - 1 else 0) * 64)) by omega),
          if_neg hB]
  · -- byte-aligned fast path
    have ho : offset % 8 = 0 := by omega
    have hd : dest_offset % 8 = 0 := by omega
    simp only [TransferBitmap, if_neg hpath]
    cases restore
    · rw [if_neg (show ¬(false = true) from by decide), getBit_byteTransferLoop]
      by_cases hA : 8 * (dest_offset / 8) ≤ j ∧ j < 8 * (dest_offset / 8 + bytesForBits length)
      · rw [if_pos hA]
        by_cases hB : dest_offset ≤ j ∧ j < dest_offset + length
        · rw [if_pos hB]
          congr 2
          omega
        · rw [if_neg hB, if_pos (show (false = false) ∧ offset % 8 = 0 ∧ dest_offset % 8 = 0 ∧
              dest_offset + length ≤ j ∧ j < dest_offset + 8 * bytesForBits length from
              ⟨rfl, ho, hd, by omega, by omega⟩)]
          congr 2
          omega
      · rw [if_neg hA,
          if_neg (show ¬(dest_offset ≤ j ∧ j < dest_offset + length) by omega),
          if_neg (show ¬((false = false) ∧ offset % 8 = 0 ∧ dest_offset % 8 = 0 ∧
            dest_offset + length ≤ j ∧ j < dest_offset + 8 * bytesForBits length) from by
            rintro ⟨_, _, _, hx, hy⟩; omega)]
    · rw [if_pos (show (true = true) from rfl), getBit_restoreTrailingLoop,
        getBit_byteTransferLoop,
        if_neg (show ¬((true = false) ∧ offset % 8 = 0 ∧ dest_offset % 8 = 0 ∧
          dest_offset + length ≤ j ∧ j < dest_offset + 8 * bytesForBits length) from by
          rintro ⟨hx, _⟩; exact absurd hx (by decide))]
      by_cases hT : 8 * (dest_offset / 8) + length + 0 ≤ j ∧
          j < 8 * (dest_offset / 8) + length + 0 + (bytesForBits length * 8 - length)
      · rw [if_pos hT,
          if_pos (show bytesForBits length * 8 - length ≠ 0 ∧ true = true from
            ⟨by omega, rfl⟩),
          if_neg (show ¬(dest_offset ≤ j ∧ j < dest_offset + length) by omega),
          ← getBit_eq_testBit dest (dest_offset / 8 + bytesForBits length - 1) _ (by omega)]
        congr 1
        omega
      · rw [if_neg hT]
        by_cases hA : dest_offset ≤ j ∧ j < dest_offset + length
        · rw [if_pos (show 8 * (dest_offset / 8) ≤ j ∧
              j < 8 * (dest_offset / 8 + bytesForBits length) by omega), if_pos hA]
          congr 2
          omega
        · rw [if_neg (show ¬(8 * (dest_offset / 8) ≤ j ∧
              j < 8 * (dest_offset / 8 + bytesForBits length)) by omega), if_neg hA]

/-! ## The allocating transfer variant -/

lemma getBit_zeroBuf (j : Nat) : getBit (fun _ => 0) j = false := by
  simp [getBit, loadByte]

lemma TransferBitmapNew_getBit (invert : Bool) (data : Buf) (offset length j : Nat) :
    getBit (TransferBitmapNew invert data offset length) j =
      if j < length then xor invert (getBit data (offset + j)) else false := by
  have hnb : length ≤ 8 * bytesForBits length ∧ 8 * bytesForBits length < length + 8 := by
    unfold bytesForBits; omega
  rw [TransferBitmapNew, getBit_clearBitsLoop, TransferBitmap_getBit]
  by_cases hA : j < length
  · rw [if_neg (by omega), if_pos (show 0 ≤ j ∧ j < 0 + length by omega), if_pos hA]
    congr 2
  · rw [if_neg hA]
    by_cases hB : j < 8 * bytesForBits length
    · rw [if_pos (show length ≤ j ∧ j < length + (bytesForBits length * 8 - length) by omega)]
    · rw [if_neg (show ¬(length ≤ j ∧ j < length + (bytesForBits length * 8 - length)) by
          omega),
        if_neg (show ¬(0 ≤ j ∧ j < 0 + length) by omega),
        if_neg (show ¬((false = false) ∧ offset % 8 = 0 ∧ 0 % 8 = 0 ∧ 0 + length ≤ j ∧
          j < 0 + 8 * bytesForBits length) from by rintro ⟨_, _, _, _, hx⟩; omega),
        getBit_zeroBuf]

/-! ## CountSetBits counts exactly the set bits -/

lemma countRef_zero (b : Buf) (off : Nat) : countRef b off 0 = 0 := by
  simp [countRef]

lemma countRef_succ_left (b : Buf) (off n : Nat) :
    countRef b off (n + 1) = (if getBit b off then 1 else 0) + countRef b (off + 1) n := by
  unfold countRef
  rw [List.range_succ_eq_map, List.countP_cons, List.countP_map]
  simp only [Nat.add_zero]
  rw [Nat.add_comm]
  congr 1
  refine List.countP_congr (fun x _ => ?_)
  simp only [Function.comp_apply]
  rw [show off + Nat.succ x = off + 1 + x by omega]

lemma countRef_split (b : Buf) (off a c : Nat) :
    countRef b off (a + c) = countRef b off a + countRef b (off + a) c := by
  unfold countRef
  rw [List.range_add, List.countP_append, List.countP_map]
  congr 1
  refine List.countP_congr (fun x _ => ?_)
  simp only [Function.comp_apply]
  rw [Nat.add_assoc]

lemma countRef_decompose (b : Buf) (off L W R : Nat) :
    countRef b off (L + (64 * W + R)) =
      countRef b off L + countRef b (off + L) (64 * W) +
        countRef b (off + L + 64 * W) R := by
  rw [countRef_split, countRef_split]
  omega

lemma countBitsLoop_eq (data : Buf) : ∀ n i, countBitsLoop data i n = countRef data i n
  | 0, i => by simp [countBitsLoop, countRef_zero]
  | n + 1, i => by
      rw [countBitsLoop, countRef_succ_left, countBitsLoop_eq data n (i + 1)]

lemma popCount64_loadWord (data : Buf) (p : Nat) :
    popCount64 (loadWord data p) = countRef data (8 * p) 64 := by
  unfold popCount64 countRef
  exact List.countP_congr (fun k hk => by
    rw [testBit_loadWord data p k (List.mem_range.mp hk)])

lemma wordPopLoop_eq (data : Buf) : ∀ n p, wordPopLoop data p n = countRef data (8 * p) (64 * n)
  | 0, p => by simp [wordPopLoop, countRef_zero]
  | n + 1, p => by
      rw [wordPopLoop, wordPopLoop_eq data n (p + 8),
        show 64 * (n + 1) = 64 + 64 * n by ring, countRef_split, popCount64_loadWord,
        show 8 * (p + 8) = 8 * p + 64 by ring]

lemma CountSetBits_eq (data : Buf) (off len : Nat) :
    CountSetBits data off len = countRef data off len := by
  unfold CountSetBits bitmapWordAlign alignUp
  dsimp only
  rw [countBitsLoop_eq, countBitsLoop_eq, wordPopLoop_eq]
  set B := (off + 64 - 1) / 64 * 64 with hB
  set L := min len (B - off) with hL
  set W := (len - L) / 64 with hW
  have hB1 : off ≤ B ∧ B < off + 64 ∧ B % 8 = 0 ∧ B % 64 = 0 := by
    constructor
    · omega
    · refine ⟨by omega, by omega, by omega⟩
  have hLle : L ≤ len := by omega
  have hWle : 64 * W ≤ len - L := by omega
  have hlen : len = L + (64 * W + (len - L - 64 * W)) := by omega
  conv_rhs => rw [hlen]
  rw [countRef_decompose]
  by_cases hmin : B - off ≤ len
  · have hLB : L = B - off := by omega
    rw [show 8 * (B / 8) = off + L by omega,
      show off + len - (off + L + 64 * W) = len - L - 64 * W by omega]
  · have hL0 : L = len := by omega
    have hW0 : W = 0 := by omega
    rw [hW0]
    simp only [Nat.mul_zero, Nat.add_zero]
    rw [show off + len - (off + L) = 0 by omega, show len - L - 0 = 0 by omega]
    simp [countRef_zero]

/-! ## BitmapEquals -/

lemma equalsBitLoop_iff (l r : Buf) :
    ∀ n ls rs, (equalsBitLoop l r ls rs n = true ↔
      ∀ i, i < n → getBit l (ls + i) = getBit r (rs + i))
  | 0, ls, rs => by
      constructor
      · intro _ i hi
        exact absurd hi (by omega)
      · intro _
        rfl
  | n + 1, ls, rs => by
      rw [equalsBitLoop]
      by_cases h : getBit l ls ≠ getBit r rs
      · rw [if_pos h]
        constructor
        · intro hf
          exact absurd hf (by simp)
        · intro hall
          exact absurd (by simpa using hall 0 (by omega)) h
      · rw [if_neg h]
        push_neg at h
        rw [equalsBitLoop_iff l r n (ls + 1) (rs + 1)]
        constructor
        · intro hall i hi
          cases i with
          | zero => simpa using h
          | succ i' =>
              have hx := hall i' (by omega)
              rw [show ls + 1 + i' = ls + (i' + 1) by omega,
                show rs + 1 + i' = rs + (i' + 1) by omega] at hx
              exact hx
        · intro hall i hi
          have hx := hall (i + 1) (by omega)
          rw [show ls + (i + 1) = ls + 1 + i by omega,
            show rs + (i + 1) = rs + 1 + i by omega] at hx
          exact hx

lemma bytesEqualLoop_iff (l r : Buf) :
    ∀ n lp rp, (bytesEqualLoop l r lp rp n = true ↔
      ∀ t, t < n → loadByte l (lp + t) = loadByte r (rp + t))
  | 0, lp, rp => by
      constructor
      · intro _ t ht
        exact absurd ht (by omega)
      · intro _
        rfl
  | n + 1, lp, rp => by
      rw [bytesEqualLoop]
      by_cases h : loadByte l lp ≠ loadByte r rp
      · rw [if_pos h]
        constructor
        · intro hf
          exact absurd hf (by simp)
        · intro hall
          exact absurd (by simpa using hall 0 (by omega)) h
      · rw [if_neg h]
        push_neg at h
        rw [bytesEqualLoop_iff l r n (lp + 1) (rp + 1)]
        constructor
        · intro hall t ht
          cases t with
          | zero => simpa using h
          | succ t' =>
              have hx := hall t' (by omega)
              rw [show lp + 1 + t' = lp + (t' + 1) by omega,
                show rp + 1 + t' = rp + (t' + 1) by omega] at hx
              exact hx
        · intro hall t ht
          have hx := hall (t + 1) (by omega)
          rw [show lp + (t + 1) = lp + 1 + t by omega,
            show rp + (t + 1) = rp + 1 + t by omega] at hx
          exact hx

lemma loadByte_eq_iff (l : Buf) (p : Nat) (r : Buf) (q : Nat) :
    loadByte l p = loadByte r q ↔
      ∀ m, m < 8 → getBit l (8 * p + m) = getBit r (8 * q + m) := by
  constructor
  · intro h m hm
    rw [getBit_eq_testBit l p m hm, getBit_eq_testBit r q m hm, h]
  · intro h
    apply Nat.eq_of_testBit_eq
    intro k
    by_cases hk : k < 8
    · rw [← getBit_eq_testBit l p k hk, ← getBit_eq_testBit r q k hk]
      exact h k hk
    · rw [testBit_loadByte_ge l p k (by omega), testBit_loadByte_ge r q k (by omega)]

lemma testBit_mergedWord (b : Buf) (sb p k : Nat) (hsb : sb < 8) (hk : k < 64) :
    Nat.testBit (shiftWord (loadWord b p) (loadWord b (p + 8)) sb) k =
      getBit b (8 * p + sb + k) := by
  rw [testBit_shiftWord _ _ _ _ (loadWord_lt b p) hsb hk]
  by_cases h : k + sb < 64
  · rw [if_pos h, testBit_loadWord _ _ _ h,
      show 8 * p + (k + sb) = 8 * p + sb + k by omega]
  · rw [if_neg h, testBit_loadWord _ _ _ (by omega),
      show 8 * (p + 8) + (k + sb - 64) = 8 * p + sb + k by omega]

lemma mergedWord_eq_iff (l : Buf) (lp lo : Nat) (r : Buf) (rp ro : Nat)
    (hlo : lo < 8) (hro : ro < 8) :
    (shiftWord (loadWord l lp) (loadWord l (lp + 8)) lo =
        shiftWord (loadWord r rp) (loadWord r (rp + 8)) ro) ↔
      ∀ k, k < 64 → getBit l (8 * lp + lo + k) = getBit r (8 * rp + ro + k) := by
  constructor
  · intro h k hk
    rw [← testBit_mergedWord l lo lp k hlo hk, ← testBit_mergedWord r ro rp k hro hk, h]
  · intro h
    apply Nat.eq_of_testBit_eq
    intro k
    by_cases hk : k < 64
    · rw [testBit_mergedWord l lo lp k hlo hk, testBit_mergedWord r ro rp k hro hk]
      exact h k hk
    · rw [Nat.testBit_eq_false_of_lt (lt_of_lt_of_le
          (shiftWord_lt _ _ _ (loadWord_lt l lp))
          (Nat.pow_le_pow_right (by norm_num) (by omega))),
        Nat.testBit_eq_false_of_lt (lt_of_lt_of_le
          (shiftWord_lt _ _ _ (loadWord_lt r rp))
          (Nat.pow_le_pow_right (by norm_num) (by omega)))]

lemma equalsWordLoop_iff (l r : Buf) (lo ro : Nat) (hlo : lo < 8) (hro : ro < 8) :
    ∀ n lp rp,
      (equalsWordLoop l r lo ro lp rp (loadWord l lp) (loadWord r rp) n = true ↔
        ∀ i, i < 64 * n → getBit l (8 * lp + lo + i) = getBit r (8 * rp + ro + i))
  | 0, lp, rp => by
      constructor
      · intro _ i hi
        exact absurd hi (by omega)
      · intro _
        rfl
  | n + 1, lp, rp => by
      simp only [equalsWordLoop]
      by_cases h : shiftWord (loadWord l lp) (loadWord l (lp + 8)) lo ≠
          shiftWord (loadWord r rp) (loadWord r (rp + 8)) ro
      · rw [if_pos h]
        constructor
        · intro hf
          exact absurd hf (by simp)
        · intro hall
          exact absurd ((mergedWord_eq_iff l lp lo r rp ro hlo hro).mpr
            (fun k hk => hall k (by omega))) h
      · rw [if_neg h]
        push_neg at h
        rw [equalsWordLoop_iff l r lo ro hlo hro n (lp + 8) (rp + 8)]
        have hmw := (mergedWord_eq_iff l lp lo r rp ro hlo hro).mp h
        constructor
        · intro hall i hi
          by_cases hic : i < 64
          · exact hmw i hic
          · have hx := hall (i - 64) (by omega)
            rw [show 8 * (lp + 8) + lo + (i - 64) = 8 * lp + lo + i by omega,
              show 8 * (rp + 8) + ro + (i - 64) = 8 * rp + ro + i by omega] at hx
            exact hx
        · intro hall i hi
          have hx := hall (i + 64) (by omega)
          rw [show 8 * lp + lo + (i + 64) = 8 * (lp + 8) + lo + i by omega,
            show 8 * rp + ro + (i + 64) = 8 * (rp + 8) + ro + i by omega] at hx
          exact hx

lemma BitmapEquals_iff (l : Buf) (lo : Nat) (r : Buf) (ro n : Nat) :
    BitmapEquals l lo r ro n = true ↔
      ∀ i, i < n → getBit l (lo + i) = getBit r (ro + i) := by
  unfold BitmapEquals
  by_cases hal : lo % 8 = 0 ∧ ro % 8 = 0
  · rw [if_pos hal, Bool.and_eq_true, bytesEqualLoop_iff, equalsBitLoop_iff]
    obtain ⟨h1, h2⟩ := hal
    constructor
    · rintro ⟨hbytes, hbits⟩ i hi
      by_cases hcase : i < n / 8 * 8
      · have hb := (loadByte_eq_iff l (lo / 8 + i / 8) r (ro / 8 + i / 8)).mp
          (hbytes (i / 8) (by omega)) (i % 8) (by omega)
        rw [show 8 * (lo / 8 + i / 8) + i % 8 = lo + i by omega,
          show 8 * (ro / 8 + i / 8) + i % 8 = ro + i by omega] at hb
        exact hb
      · have hb := hbits (i - n / 8 * 8) (by omega)
        rw [show lo + n / 8 * 8 + (i - n / 8 * 8) = lo + i by omega,
          show ro + n / 8 * 8 + (i - n / 8 * 8) = ro + i by omega] at hb
        exact hb
    · intro hall
      refine ⟨fun t ht => ?_, fun i hi => ?_⟩
      · refine (loadByte_eq_iff l (lo / 8 + t) r (ro / 8 + t)).mpr (fun m hm => ?_)
        have hb := hall (8 * t + m) (by omega)
        rw [show lo + (8 * t + m) = 8 * (lo / 8 + t) + m by omega,
          show ro + (8 * t + m) = 8 * (ro / 8 + t) + m by omega] at hb
        exact hb
      · have hb := hall (n / 8 * 8 + i) (by omega)
        rw [show lo + (n / 8 * 8 + i) = lo + n / 8 * 8 + i by omega,
          show ro + (n / 8 * 8 + i) = ro + n / 8 * 8 + i by omega] at hb
        exact hb
  · rw [if_neg hal, Bool.and_eq_true,
      equalsWordLoop_iff l r (lo % 8) (ro % 8) (Nat.mod_lt _ (by norm_num))
        (Nat.mod_lt _ (by norm_num)), equalsBitLoop_iff]
    have hlo8 : 8 * (lo / 8) + lo % 8 = lo := Nat.div_add_mod lo 8
    have hro8 : 8 * (ro / 8) + ro % 8 = ro := Nat.div_add_mod ro 8
    have hI : 64 * (if n / 64 > 1 then n / 64 - 1 else 0) ≤ n := by
      have := Nat.div_mul_le_self n 64
      by_cases h : n / 64 > 1
      · rw [if_pos h]; omega
      · rw [if_neg h]; omega
    constructor
    · rintro ⟨hw, hb⟩ i hi
      by_cases hcase : i < 64 * (if n / 64 > 1 then n / 64 - 1 else 0)
      · have hx := hw i hcase
        rw [show 8 * (lo / 8) + lo % 8 + i = lo + i by omega,
          show 8 * (ro / 8) + ro % 8 + i = ro + i by omega] at hx
        exact hx
      · have hx := hb (i - (if n / 64 > 1 then n / 64 - 1 else 0) * 64) (by omega)
        rw [show 8 * (lo / 8 + 8 * (if n / 64 > 1 then n / 64 - 1 else 0)) + lo % 8 +
              (i - (if n / 64 > 1 then n / 64 - 1 else 0) * 64) = lo + i by omega,
          show 8 * (ro / 8 + 8 * (if n / 64 > 1 then n / 64 - 1 else 0)) + ro % 8 +
              (i - (if n / 64 > 1 then n / 64 - 1 else 0) * 64) = ro + i by omega] at hx
        exact hx
    · intro hall
      refine ⟨fun i hi => ?_, fun i hi => ?_⟩
      · have hx := hall i (by omega)
        rw [show lo + i = 8 * (lo / 8) + lo % 8 + i by omega,
          show ro + i = 8 * (ro / 8) + ro % 8 + i by omega] at hx
        exact hx
      · have hx := hall ((if n / 64 > 1 then n / 64 - 1 else 0) * 64 + i) (by omega)
        rw [show lo + ((if n / 64 > 1 then n / 64 - 1 else 0) * 64 + i) =
              8 * (lo / 8 + 8 * (if n / 64 > 1 then n / 64 - 1 else 0)) + lo % 8 + i
            by omega,
          show ro + ((if n / 64 > 1 then n / 64 - 1 else 0) * 64 + i) =
              8 * (ro / 8 + 8 * (if n / 64 > 1 then n / 64 - 1 else 0)) + ro % 8 + i
            by omega] at hx
        exact hx

/-! ## The binary combinator word loop -/

lemma lt_two_pow_of_high_bits_false {x n : Nat} (h : ∀ k, n ≤ k → Nat.testBit x k = false) :
    x < 2 ^ n := by
  by_contra hx
  push_neg at hx
  obtain ⟨i, hi, hbit⟩ := Nat.ge_two_pow_implies_high_bit_true hx
  rw [h i hi] at hbit
  cases hbit

lemma testBit_opWord (left right : Buf) (bop : Nat → Nat → Nat) (lop : Bool → Bool → Bool)
    (hbop : ∀ x y k, Nat.testBit (bop x y) k = lop (Nat.testBit x k) (Nat.testBit y k))
    (lo ro lp rp k : Nat) (hlo : lo < 8) (hro : ro < 8) (hk : k < 64) :
    Nat.testBit (bop (shiftWord (loadWord left lp) (loadWord left (lp + 8)) lo)
        (shiftWord (loadWord right rp) (loadWord right (rp + 8)) ro)) k =
      lop (getBit left (8 * lp + lo + k)) (getBit right (8 * rp + ro + k)) := by
  rw [hbop, testBit_mergedWord left lo lp k hlo hk, testBit_mergedWord right ro rp k hro hk]

lemma opWord_lt (left right : Buf) (bop : Nat → Nat → Nat) (lop : Bool → Bool → Bool)
    (hbop : ∀ x y k, Nat.testBit (bop x y) k = lop (Nat.testBit x k) (Nat.testBit y k))
    (h00 : lop false false = false) (lo ro lp rp : Nat) :
    bop (shiftWord (loadWord left lp) (loadWord left (lp + 8)) lo)
        (shiftWord (loadWord right rp) (loadWord right (rp + 8)) ro) < 2 ^ 64 := by
  apply lt_two_pow_of_high_bits_false
  intro k hk
  rw [hbop,
    Nat.testBit_eq_false_of_lt (lt_of_lt_of_le (shiftWord_lt _ _ _ (loadWord_lt left lp))
      (Nat.pow_le_pow_right (by norm_num) hk)),
    Nat.testBit_eq_false_of_lt (lt_of_lt_of_le (shiftWord_lt _ _ _ (loadWord_lt right rp))
      (Nat.pow_le_pow_right (by norm_num) hk)), h00]

lemma opWordStep_spec (left right : Buf) (lo ro ob : Nat) (bop : Nat → Nat → Nat)
    (lop : Bool → Bool → Bool)
    (hbop : ∀ x y k, Nat.testBit (bop x y) k = lop (Nat.testBit x k) (Nat.testBit y k))
    (h00 : lop false false = false)
    (hlo : lo < 8) (hro : ro < 8) (hob : ob < 8) (s : OpState)
    (hleft : s.leftWord0 = loadWord left s.leftPos)
    (hright : s.rightWord0 = loadWord right s.rightPos)
    (hout : ob ≠ 0 → s.outWord0 = loadWord s.mem s.outPos) :
    (opWordStep left right lo ro ob bop s).leftPos = s.leftPos + 8 ∧
    (opWordStep left right lo ro ob bop s).rightPos = s.rightPos + 8 ∧
    (opWordStep left right lo ro ob bop s).outPos = s.outPos + 8 ∧
    (opWordStep left right lo ro ob bop s).leftWord0 =
      loadWord left (opWordStep left right lo ro ob bop s).leftPos ∧
    (opWordStep left right lo ro ob bop s).rightWord0 =
      loadWord right (opWordStep left right lo ro ob bop s).rightPos ∧
    (ob ≠ 0 → (opWordStep left right lo ro ob bop s).outWord0 =
      loadWord (opWordStep left right lo ro ob bop s).mem
        (opWordStep left right lo ro ob bop s).outPos) ∧
    ∀ j, getBit (opWordStep left right lo ro ob bop s).mem j =
      if 8 * s.outPos + ob ≤ j ∧ j < 8 * s.outPos + ob + 64
      then lop (getBit left (8 * s.leftPos + lo + (j - (8 * s.outPos + ob))))
        (getBit right (8 * s.rightPos + ro + (j - (8 * s.outPos + ob))))
      else getBit s.mem j := by
  simp only [opWordStep, hleft, hright]
  have hW := opWord_lt left right bop lop hbop h00 lo ro s.leftPos s.rightPos
  refine ⟨trivial, trivial, trivial, trivial, trivial, fun hob0 => ?_, fun j => ?_⟩
  · exact storeShifted_snd_pos ob s.mem s.outPos s.outWord0 _ (by omega) hW
  · by_cases hob0 : ob = 0
    · subst hob0
      rw [storeShifted_zero_fst, getBit_storeWord]
      by_cases hr : 8 * s.outPos ≤ j ∧ j < 8 * s.outPos + 64
      · have hr' : 8 * s.outPos + 0 ≤ j ∧ j < 8 * s.outPos + 0 + 64 := by omega
        rw [if_pos hr, if_pos hr',
          testBit_opWord left right bop lop hbop lo ro s.leftPos s.rightPos _ hlo hro
            (by omega),
          show j - (8 * s.outPos + 0) = j - 8 * s.outPos by omega]
      · have hr' : ¬(8 * s.outPos + 0 ≤ j ∧ j < 8 * s.outPos + 0 + 64) := by omega
        rw [if_neg hr, if_neg hr']
    · rw [getBit_storeShifted ob s.mem s.outPos s.outWord0 _ (by omega) hob hW
        (hout hob0) j]
      by_cases hr : 8 * s.outPos + ob ≤ j ∧ j < 8 * s.outPos + ob + 64
      · rw [if_pos hr, if_pos hr,
          testBit_opWord left right bop lop hbop lo ro s.leftPos s.rightPos _ hlo hro
            (by omega)]
      · rw [if_neg hr, if_neg hr]

lemma opWordLoop_spec (left right : Buf) (lo ro ob : Nat) (bop : Nat → Nat → Nat)
    (lop : Bool → Bool → Bool)
    (hbop : ∀ x y k, Nat.testBit (bop x y) k = lop (Nat.testBit x k) (Nat.testBit y k))
    (h00 : lop false false = false)
    (hlo : lo < 8) (hro : ro < 8) (hob : ob < 8) :
    ∀ (n : Nat) (s : OpState),
      s.leftWord0 = loadWord left s.leftPos →
      s.rightWord0 = loadWord right s.rightPos →
      (ob ≠ 0 → s.outWord0 = loadWord s.mem s.outPos) →
      (opWordLoop left right lo ro ob bop n s).leftPos = s.leftPos + 8 * n ∧
      (opWordLoop left right lo ro ob bop n s).rightPos = s.rightPos + 8 * n ∧
      (opWordLoop left right lo ro ob bop n s).outPos = s.outPos + 8 * n ∧
      ∀ j, getBit (opWordLoop left right lo ro ob bop n s).mem j =
        if 8 * s.outPos + ob ≤ j ∧ j < 8 * s.outPos + ob + 64 * n
        then lop (getBit left (8 * s.leftPos + lo + (j - (8 * s.outPos + ob))))
          (getBit right (8 * s.rightPos + ro + (j - (8 * s.outPos + ob))))
        else getBit s.mem j
  | 0, s, _, _, _ => by
      refine ⟨by simp [opWordLoop], by simp [opWordLoop], by simp [opWordLoop], fun j => ?_⟩
      rw [if_neg (by omega)]
      simp [opWordLoop]
  | n + 1, s, hleft, hright, hout => by
      obtain ⟨h1, h2, h3, h4, h5, h6, h7⟩ :=
        opWordStep_spec left right lo ro ob bop lop hbop h00 hlo hro hob s hleft hright hout
      obtain ⟨g1, g2, g3, g4⟩ :=
        opWordLoop_spec left right lo ro ob bop lop hbop h00 hlo hro hob n
          (opWordStep left right lo ro ob bop s) h4 h5 h6
      rw [h1] at g1
      rw [h2] at g2
      rw [h3] at g3
      refine ⟨?_, ?_, ?_, fun j => ?_⟩
      · rw [opWordLoop, g1]; ring
      · rw [opWordLoop, g2]; ring
      · rw [opWordLoop, g3]; ring
      · rw [opWordLoop, g4 j, h1, h2, h3, h7 j]
        by_cases hIH : 8 * (s.outPos + 8) + ob ≤ j ∧ j < 8 * (s.outPos + 8) + ob + 64 * n
        · rw [if_pos hIH, if_pos (by omega),
            show 8 * (s.leftPos + 8) + lo + (j - (8 * (s.outPos + 8) + ob)) =
              8 * s.leftPos + lo + (j - (8 * s.outPos + ob)) by omega,
            show 8 * (s.rightPos + 8) + ro + (j - (8 * (s.outPos + 8) + ob)) =
              8 * s.rightPos + ro + (j - (8 * s.outPos + ob)) by omega]
        · rw [if_neg hIH]
          by_cases hst : 8 * s.outPos + ob ≤ j ∧ j < 8 * s.outPos + ob + 64
          · rw [if_pos hst, if_pos (by omega)]
          · rw [if_neg hst, if_neg (by omega)]

/-! ## Master characterization of the binary combinators -/

lemma alignedOpLoop_getBit (bop : Nat → Nat → Nat) (lop : Bool → Bool → Bool)
    (hbop : ∀ x y k, Nat.testBit (bop x y) k = lop (Nat.testBit x k) (Nat.testBit y k))
    (left right : Buf) :
    ∀ n lp rp op mem j,
      getBit (alignedOpLoop bop left right lp rp op n mem) j =
        if 8 * op ≤ j ∧ j < 8 * (op + n)
        then lop (getBit left (8 * lp + (j - 8 * op))) (getBit right (8 * rp + (j - 8 * op)))
        else getBit mem j
  | 0, lp, rp, op, mem, j => by
      rw [alignedOpLoop, if_neg (by omega)]
  | n + 1, lp, rp, op, mem, j => by
      have hm : j % 8 < 8 := Nat.mod_lt _ (by norm_num)
      have hd := Nat.div_add_mod j 8
      rw [alignedOpLoop, alignedOpLoop_getBit bop lop hbop left right n (lp + 1) (rp + 1)
        (op + 1) _ j]
      by_cases h : 8 * (op + 1) ≤ j ∧ j < 8 * (op + 1 + n)
      · rw [if_pos h, if_pos (by omega),
          show 8 * (lp + 1) + (j - 8 * (op + 1)) = 8 * lp + (j - 8 * op) by omega,
          show 8 * (rp + 1) + (j - 8 * (op + 1)) = 8 * rp + (j - 8 * op) by omega]
      · rw [if_neg h, getBit_writeByte]
        by_cases h2 : j / 8 = op
        · rw [if_pos h2, if_pos (by omega), hbop,
            ← getBit_eq_testBit left lp (j % 8) hm, ← getBit_eq_testBit right rp (j % 8) hm,
            show 8 * lp + (j - 8 * op) = 8 * lp + j % 8 by omega,
            show 8 * rp + (j - 8 * op) = 8 * rp + j % 8 by omega]
        · rw [if_neg h2, if_neg (by omega)]

lemma opIters_le (lo ro oo length : Nat) : 64 * opIters lo ro oo length ≤ length := by
  unfold opIters bytesForBits
  have h1 : lo % 8 < 8 := Nat.mod_lt _ (by norm_num)
  have h2 : ro % 8 < 8 := Nat.mod_lt _ (by norm_num)
  have h3 : oo % 8 < 8 := Nat.mod_lt _ (by norm_num)
  by_cases h : (length + min (lo % 8) (min (ro % 8) (oo % 8)) + 7) / 8 / 8 > 1
  · rw [if_pos h]
    omega
  · rw [if_neg h]
    omega

lemma UnalignedBitmapOp_getBit (bop : Nat → Nat → Nat) (lop : Bool → Bool → Bool)
    (hbop : ∀ x y k, Nat.testBit (bop x y) k = lop (Nat.testBit x k) (Nat.testBit y k))
    (h00 : lop false false = false) (left : Buf) (lo : Nat) (right : Buf) (ro : Nat)
    (out : Buf) (oo length j : Nat) :
    getBit (UnalignedBitmapOp bop lop left lo right ro out oo length) j =
      if oo ≤ j ∧ j < oo + length
      then lop (getBit left (lo + (j - oo))) (getBit right (ro + (j - oo)))
      else getBit out j := by
  have hlo8 : 8 * (lo / 8) + lo % 8 = lo := Nat.div_add_mod lo 8
  have hro8 : 8 * (ro / 8) + ro % 8 = ro := Nat.div_add_mod ro 8
  have hoo8 : 8 * (oo / 8) + oo % 8 = oo := Nat.div_add_mod oo 8
  have hI := opIters_le lo ro oo length
  simp only [UnalignedBitmapOp]
  obtain ⟨g1, g2, g3, g4⟩ := opWordLoop_spec left right (lo % 8) (ro % 8) (oo % 8)
    bop lop hbop h00 (Nat.mod_lt _ (by norm_num)) (Nat.mod_lt _ (by norm_num))
    (Nat.mod_lt _ (by norm_num)) (opIters lo ro oo length)
    ⟨lo / 8, ro / 8, oo / 8, loadWord left (lo / 8), loadWord right (ro / 8),
      loadWord out (oo / 8), out⟩ rfl rfl (fun _ => rfl)
  dsimp only at g1 g2 g3 g4
  rw [getBit_opBitLoop, g1, g2, g3, g4]
  by_cases hA : oo ≤ j ∧ j < oo + 64 * opIters lo ro oo length
  · rw [if_neg (show ¬(8 * (oo / 8 + 8 * opIters lo ro oo length) + oo % 8 ≤ j ∧
        j < 8 * (oo / 8 + 8 * opIters lo ro oo length) + oo % 8 +
          (length - opIters lo ro oo length * 64)) by omega),
      if_pos (show 8 * (oo / 8) + oo % 8 ≤ j ∧
        j < 8 * (oo / 8) + oo % 8 + 64 * opIters lo ro oo length by omega),
      if_pos (show oo ≤ j ∧ j < oo + length by omega),
      show 8 * (lo / 8) + lo % 8 + (j - (8 * (oo / 8) + oo % 8)) = lo + (j - oo) by omega,
      show 8 * (ro / 8) + ro % 8 + (j - (8 * (oo / 8) + oo % 8)) = ro + (j - oo) by omega]
  · by_cases hB : oo ≤ j ∧ j < oo + length
    · rw [if_pos (show 8 * (oo / 8 + 8 * opIters lo ro oo length) + oo % 8 ≤ j ∧
          j < 8 * (oo / 8 + 8 * opIters lo ro oo length) + oo % 8 +
            (length - opIters lo ro oo length * 64) by omega),
        if_pos hB,
        show 8 * (lo / 8 + 8 * opIters lo ro oo length) + lo % 8 +
            (j - (8 * (oo / 8 + 8 * opIters lo ro oo length) + oo % 8)) =
          lo + (j - oo) by omega,
        show 8 * (ro / 8 + 8 * opIters lo ro oo length) + ro % 8 +
            (j - (8 * (oo / 8 + 8 * opIters lo ro oo length) + oo % 8)) =
          ro + (j - oo) by omega]
    · rw [if_neg (show ¬(8 * (oo / 8 + 8 * opIters lo ro oo length) + oo % 8 ≤ j ∧
          j < 8 * (oo / 8 + 8 * opIters lo ro oo length) + oo % 8 +
            (length - opIters lo ro oo length * 64)) by omega),
        if_neg (show ¬(8 * (oo / 8) + oo % 8 ≤ j ∧
          j < 8 * (oo / 8) + oo % 8 + 64 * opIters lo ro oo length) by omega),
        if_neg hB]

/-- Every bit `BitmapOp` leaves in the destination: under the aligned fast
case the whole touched byte window holds bytewise combinator output; under
the unaligned path exactly the bits of `[out_offset, out_offset + length)`
are written; everything else is untouched. -/
lemma BitmapOp_getBit (bop : Nat → Nat → Nat) (lop : Bool → Bool → Bool)
    (hbop : ∀ x y k, Nat.testBit (bop x y) k = lop (Nat.testBit x k) (Nat.testBit y k))
    (h00 : lop false false = false) (left : Buf) (lo : Nat) (right : Buf)
    (ro length oo : Nat) (dest : Buf) (j : Nat) :
    getBit (BitmapOp bop lop left lo right ro length oo dest) j =
      if (oo % 8 = lo % 8 ∧ oo % 8 = ro % 8) ∧ 8 * (oo / 8) ≤ j ∧
          j < 8 * (oo / 8) + 8 * bytesForBits (length + lo % 8)
      then lop (getBit left (8 * (lo / 8) + (j - 8 * (oo / 8))))
        (getBit right (8 * (ro / 8) + (j - 8 * (oo / 8))))
      else if oo ≤ j ∧ j < oo + length
        then lop (getBit left (lo + (j - oo))) (getBit right (ro + (j - oo)))
        else getBit dest j := by
  have hnb : length + lo % 8 ≤ 8 * bytesForBits (length + lo % 8) := by
    unfold bytesForBits; omega
  have hoo8 := Nat.div_add_mod oo 8
  have hlo8 := Nat.div_add_mod lo 8
  unfold BitmapOp
  by_cases hal : oo % 8 = lo % 8 ∧ oo % 8 = ro % 8
  · rw [if_pos hal]
    unfold AlignedBitmapOp
    rw [alignedOpLoop_getBit bop lop hbop]
    by_cases hin : 8 * (oo / 8) ≤ j ∧ j < 8 * (oo / 8) + 8 * bytesForBits (length + lo % 8)
    · rw [if_pos (show 8 * (oo / 8) ≤ j ∧
          j < 8 * (oo / 8 + bytesForBits (length + lo % 8)) by omega),
        if_pos (show (oo % 8 = lo % 8 ∧ oo % 8 = ro % 8) ∧ 8 * (oo / 8) ≤ j ∧
          j < 8 * (oo / 8) + 8 * bytesForBits (length + lo % 8) from ⟨hal, hin⟩)]
    · rw [if_neg (show ¬(8 * (oo / 8) ≤ j ∧
          j < 8 * (oo / 8 + bytesForBits (length + lo % 8))) by omega),
        if_neg (show ¬((oo % 8 = lo % 8 ∧ oo % 8 = ro % 8) ∧ 8 * (oo / 8) ≤ j ∧
          j < 8 * (oo / 8) + 8 * bytesForBits (length + lo % 8)) from fun h => hin h.2),
        if_neg (show ¬(oo ≤ j ∧ j < oo + length) by omega)]
  · rw [if_neg hal, UnalignedBitmapOp_getBit bop lop hbop h00,
      if_neg (show ¬((oo % 8 = lo % 8 ∧ oo % 8 = ro % 8) ∧ 8 * (oo / 8) ≤ j ∧
        j < 8 * (oo / 8) + 8 * bytesForBits (length + lo % 8)) from fun h => hal h.1)]

/-- On the output range, both paths of `BitmapOp` produce exactly the
bitwise combination of the two operand ranges. -/
lemma BitmapOp_getBit_range (bop : Nat → Nat → Nat) (lop : Bool → Bool → Bool)
    (hbop : ∀ x y k, Nat.testBit (bop x y) k = lop (Nat.testBit x k) (Nat.testBit y k))
    (h00 : lop false false = false) (left : Buf) (lo : Nat) (right : Buf)
    (ro length oo : Nat) (dest : Buf) (t : Nat) (ht : t < length) :
    getBit (BitmapOp bop lop left lo right ro length oo dest) (oo + t) =
      lop (getBit left (lo + t)) (getBit right (ro + t)) := by
  have hoo8 := Nat.div_add_mod oo 8
  have hlo8 := Nat.div_add_mod lo 8
  have hro8 := Nat.div_add_mod ro 8
  rw [BitmapOp_getBit bop lop hbop h00]
  by_cases hal : (oo % 8 = lo % 8 ∧ oo % 8 = ro % 8) ∧ 8 * (oo / 8) ≤ oo + t ∧
      oo + t < 8 * (oo / 8) + 8 * bytesForBits (length + lo % 8)
  · rw [if_pos hal]
    obtain ⟨⟨h1, h2⟩, _⟩ := hal
    rw [show 8 * (lo / 8) + (oo + t - 8 * (oo / 8)) = lo + t by omega,
      show 8 * (ro / 8) + (oo + t - 8 * (oo / 8)) = ro + t by omega]
  · rw [if_neg hal, if_pos (show oo ≤ oo + t ∧ oo + t < oo + length by omega),
      show oo + t - oo = t by omega]

/-! ## Views and reference helpers -/

lemma bitsRange_congr {b b' : Buf} {off off' : Nat} (len : Nat)
    (h : ∀ i, i < len → getBit b (off + i) = getBit b' (off' + i)) :
    bitsRange b off len = bitsRange b' off' len :=
  List.map_congr_left (fun i hi => h i (List.mem_range.mp hi))

lemma bitsRange_eq_replicate_false {b : Buf} {off : Nat} (len : Nat)
    (h : ∀ i, i < len → getBit b (off + i) = false) :
    bitsRange b off len = List.replicate len false := by
  refine List.eq_replicate_iff.mpr ⟨by simp [bitsRange], fun x hx => ?_⟩
  obtain ⟨i, hi, rfl⟩ := List.mem_map.mp hx
  exact h i (List.mem_range.mp hi)

lemma bool_eq_of_iff {a b : Bool} (h : a = true ↔ b = true) : a = b := by
  cases a <;> cases b <;> simp_all

lemma equalsRef_iff (left : Buf) (lo : Nat) (right : Buf) (ro n : Nat) :
    equalsRef left lo right ro n = true ↔
      ∀ i, i < n → getBit left (lo + i) = getBit right (ro + i) := by
  unfold equalsRef
  rw [List.all_eq_true]
  constructor
  · intro h i hi
    exact beq_iff_eq.mp (h i (List.mem_range.mpr hi))
  · intro h i hi
    exact beq_iff_eq.mpr (h i (List.mem_range.mp hi))

lemma transferSlow_getBit (invert : Bool) (data : Buf) (offset length dest_offset : Nat)
    (dest : Buf) (j : Nat) :
    getBit (transferSlow invert data offset length dest_offset dest) j =
      if dest_offset ≤ j ∧ j < dest_offset + length
      then xor invert (getBit data (offset + (j - dest_offset)))
      else getBit dest j := by
  rw [transferSlow, getBit_transferBitLoop]

lemma opSlow_getBit (lop : Bool → Bool → Bool) (left : Buf) (lo : Nat) (right : Buf)
    (ro length oo : Nat) (out : Buf) (j : Nat) :
    getBit (opSlow lop left lo right ro length oo out) j =
      if oo ≤ j ∧ j < oo + length
      then lop (getBit left (lo + (j - oo))) (getBit right (ro + (j - oo)))
      else getBit out j := by
  rw [opSlow, getBit_opBitLoop]

lemma testBit_land_bool (x y k : Nat) :
    Nat.testBit (Nat.land x y) k = (Nat.testBit x k && Nat.testBit y k) :=
  Nat.testBit_land x y k

lemma testBit_lor_bool (x y k : Nat) :
    Nat.testBit (Nat.lor x y) k = (Nat.testBit x k || Nat.testBit y k) :=
  Nat.testBit_lor x y k

lemma testBit_xor_bool (x y k : Nat) :
    Nat.testBit (Nat.xor x y) k = xor (Nat.testBit x k) (Nat.testBit y k) := by
  rw [show Nat.xor x y = x ^^^ y from rfl, Nat.testBit_xor]

/-! ## Claim theorems -/

/-- C1: for every kernel with a fast and a slow path — the transfer kernel
behind copy/invert, `BitmapEquals`, and the AND/OR/XOR combinators — and all
buffers, offsets and lengths, the kernel's result is bit-for-bit identical on
the output range to the slow bit-at-a-time reference computation (for equals,
the same boolean). -/
theorem C1_reference_equivalence :
    (∀ (invert restore : Bool) (data : Buf) (offset length dest_offset : Nat) (dest : Buf),
      bitsRange (TransferBitmap invert restore data offset length dest_offset dest)
          dest_offset length =
        bitsRange (transferSlow invert data offset length dest_offset dest)
          dest_offset length) ∧
    (∀ (left : Buf) (lo : Nat) (right : Buf) (ro n : Nat),
      BitmapEquals left lo right ro n = equalsSlow left lo right ro n) ∧
    (∀ (left : Buf) (lo : Nat) (right : Buf) (ro length oo : Nat) (out : Buf),
      bitsRange (BitmapAnd left lo right ro length oo out) oo length =
        bitsRange (opSlow (fun a b => a && b) left lo right ro length oo out) oo length ∧
      bitsRange (BitmapOr left lo right ro length oo out) oo length =
        bitsRange (opSlow (fun a b => a || b) left lo right ro length oo out) oo length ∧
      bitsRange (BitmapXor left lo right ro length oo out) oo length =
        bitsRange (opSlow (fun a b => xor a b) left lo right ro length oo out) oo length) := by
  refine ⟨fun invert restore data offset length dest_offset dest => ?_,
    fun left lo right ro n => ?_, fun left lo right ro length oo out => ?_⟩
  · refine bitsRange_congr length (fun i hi => ?_)
    rw [TransferBitmap_getBit, transferSlow_getBit,
      if_pos (show dest_offset ≤ dest_offset + i ∧ dest_offset + i < dest_offset + length
        by omega),
      if_pos (show dest_offset ≤ dest_offset + i ∧ dest_offset + i < dest_offset + length
        by omega)]
  · exact bool_eq_of_iff ((BitmapEquals_iff left lo right ro n).trans
      (equalsBitLoop_iff left right n lo ro).symm)
  · refine ⟨?_, ?_, ?_⟩
    · refine bitsRange_congr length (fun i hi => ?_)
      rw [BitmapAnd, BitmapOp_getBit_range _ _ testBit_land_bool rfl left lo right ro
        length oo out i hi, opSlow_getBit,
        if_pos (show oo ≤ oo + i ∧ oo + i < oo + length by omega),
        Nat.add_sub_cancel_left]
    · refine bitsRange_congr length (fun i hi => ?_)
      rw [BitmapOr, BitmapOp_getBit_range _ _ testBit_lor_bool rfl left lo right ro
        length oo out i hi, opSlow_getBit,
        if_pos (show oo ≤ oo + i ∧ oo + i < oo + length by omega),
        Nat.add_sub_cancel_left]
    · refine bitsRange_congr length (fun i hi => ?_)
      rw [BitmapXor, BitmapOp_getBit_range _ _ testBit_xor_bool rfl left lo right ro
        length oo out i hi, opSlow_getBit,
        if_pos (show oo ≤ oo + i ∧ oo + i < oo + length by omega),
        Nat.add_sub_cancel_left]

/-- C2: after `CopyBitmap(src, src_offset, length, dst, dst_offset,
restore_trailing)`, for either value of `restore_trailing` and all offsets
and lengths, bit `dst_offset + i` of the destination equals bit
`src_offset + i` of the source for every `i < length` (LSB-first per byte);
in particular `copy([0b10110100], 2, 4, dst=[0x00], 3, restore=false)` leaves
`dst == 0x68`. -/
theorem C2_copy_functional_correctness :
    (∀ (data : Buf) (offset length : Nat) (dest : Buf) (dest_offset : Nat)
        (restore : Bool),
      bitsRange (CopyBitmap data offset length dest dest_offset restore)
          dest_offset length =
        bitsRange data offset length) ∧
    loadByte (CopyBitmap (mkBuf [0xB4]) 2 4 (mkBuf [0x00]) 3 false) 0 = 0x68 := by
  constructor
  · intro data offset length dest dest_offset restore
    refine bitsRange_congr length (fun i hi => ?_)
    rw [CopyBitmap, TransferBitmap_getBit,
      if_pos (show dest_offset ≤ dest_offset + i ∧ dest_offset + i < dest_offset + length
        by omega), Bool.false_xor, Nat.add_sub_cancel_left]
  · decide

/-- C3: `CountSetBits(buf, bit_offset, length)` returns exactly the number of
indices `i` in `[bit_offset, bit_offset + length)` whose bit is set, under the
LSB-first convention; in particular, for `buf = [0xFF, 0x0F]` the counts at
`(0,12)`, `(4,8)` and `(4,4)` are `12`, `8` and `4`. -/
theorem C3_count_set_bits :
    (∀ (data : Buf) (bit_offset length : Nat),
      CountSetBits data bit_offset length = countRef data bit_offset length) ∧
    CountSetBits (mkBuf [0xFF, 0x0F]) 0 12 = 12 ∧
    CountSetBits (mkBuf [0xFF, 0x0F]) 4 8 = 8 ∧
    CountSetBits (mkBuf [0xFF, 0x0F]) 4 4 = 4 := by
  refine ⟨CountSetBits_eq, by decide, by decide, by decide⟩

/-- C4 counterexample: `CopyBitmap` with `restore_trailing = false` on the
byte-aligned fast path overwrites destination bits beyond the output range —
bit 4 of the destination flips from 0 to 1 although only bits `[0, 4)` were
requested — so the claim's "only permitted exception" (the binary
combinators' aligned fast path) does not cover all clobbered bits. -/
theorem C4_counterexample :
    getBit (CopyBitmap (mkBuf [0xFF]) 0 4 (mkBuf [0x00]) 0 false) 4 = true ∧
    getBit (mkBuf [0x00]) 4 = false := by
  exact ⟨by decide, by decide⟩

/-- C4 (amended): for every in-place operation, every destination bit outside
the output range is bit-identical before and after the call, with two
permitted exceptions: the aligned-fast-path do-not-care byte window of the
binary combinators, and — forced by the counterexample — the trailing bits of
the last byte for `CopyBitmap` with `restore_trailing = false` when both
offsets are byte-aligned. -/
theorem C4_out_of_range_preservation :
    (∀ (data : Buf) (offset length : Nat) (dest : Buf) (dest_offset : Nat)
        (restore : Bool) (j : Nat),
      (j < dest_offset ∨ dest_offset + length ≤ j) →
      ¬(restore = false ∧ offset % 8 = 0 ∧ dest_offset % 8 = 0 ∧
        dest_offset + length ≤ j ∧ j < dest_offset + 8 * bytesForBits length) →
      getBit (CopyBitmap data offset length dest dest_offset restore) j =
        getBit dest j) ∧
    (∀ (data : Buf) (offset length : Nat) (dest : Buf) (dest_offset j : Nat),
      (j < dest_offset ∨ dest_offset + length ≤ j) →
      getBit (InvertBitmap data offset length dest dest_offset) j = getBit dest j) ∧
    (∀ (left : Buf) (lo : Nat) (right : Buf) (ro length oo : Nat) (out : Buf) (j : Nat),
      (j < oo ∨ oo + length ≤ j) →
      ¬((oo % 8 = lo % 8 ∧ oo % 8 = ro % 8) ∧ 8 * (oo / 8) ≤ j ∧
        j < 8 * (oo / 8) + 8 * bytesForBits (length + lo % 8)) →
      getBit (BitmapAnd left lo right ro length oo out) j = getBit out j ∧
      getBit (BitmapOr left lo right ro length oo out) j = getBit out j ∧
      getBit (BitmapXor left lo right ro length oo out) j = getBit out j) := by
  refine ⟨fun data offset length dest dest_offset restore j hj hexc => ?_,
    fun data offset length dest dest_offset j hj => ?_,
    fun left lo right ro length oo out j hj hexc => ?_⟩
  · rw [CopyBitmap, TransferBitmap_getBit,
      if_neg (show ¬(dest_offset ≤ j ∧ j < dest_offset + length) by omega),
      if_neg hexc]
  · rw [InvertBitmap, TransferBitmap_getBit,
      if_neg (show ¬(dest_offset ≤ j ∧ j < dest_offset + length) by omega),
      if_neg (show ¬((true = false) ∧ offset % 8 = 0 ∧ dest_offset % 8 = 0 ∧
        dest_offset + length ≤ j ∧ j < dest_offset + 8 * bytesForBits length) from by
        rintro ⟨hx, _⟩; exact absurd hx (by decide))]
  · refine ⟨?_, ?_, ?_⟩
    · rw [BitmapAnd, BitmapOp_getBit _ _ testBit_land_bool rfl, if_neg hexc,
        if_neg (show ¬(oo ≤ j ∧ j < oo + length) by omega)]
    · rw [BitmapOr, BitmapOp_getBit _ _ testBit_lor_bool rfl, if_neg hexc,
        if_neg (show ¬(oo ≤ j ∧ j < oo + length) by omega)]
    · rw [BitmapXor, BitmapOp_getBit _ _ testBit_xor_bool rfl, if_neg hexc,
        if_neg (show ¬(oo ≤ j ∧ j < oo + length) by omega)]

/-- C4 witness: the amended preservation applied at concrete inputs — an
unaligned copy below the range, an invert above the range, and the three
combinators at an offset-skewed (unaligned-path) instance. -/
theorem C4_out_of_range_preservation_witness :
    getBit (CopyBitmap (mkBuf [0xFF]) 0 4 (mkBuf [0x00]) 3 false) 0 =
      getBit (mkBuf [0x00]) 0 ∧
    getBit (InvertBitmap (mkBuf [0xFF]) 0 4 (mkBuf [0x00]) 0) 6 =
      getBit (mkBuf [0x00]) 6 ∧
    (getBit (BitmapAnd (mkBuf [0xFF]) 1 (mkBuf [0xFF]) 0 4 0 (mkBuf [0x00])) 6 =
      getBit (mkBuf [0x00]) 6 ∧
    getBit (BitmapOr (mkBuf [0xFF]) 1 (mkBuf [0xFF]) 0 4 0 (mkBuf [0x00])) 6 =
      getBit (mkBuf [0x00]) 6 ∧
    getBit (BitmapXor (mkBuf [0xFF]) 1 (mkBuf [0xFF]) 0 4 0 (mkBuf [0x00])) 6 =
      getBit (mkBuf [0x00]) 6) := by
  refine ⟨C4_out_of_range_preservation.1 (mkBuf [0xFF]) 0 4 (mkBuf [0x00]) 3 false 0
      (by decide) (by decide),
    C4_out_of_range_preservation.2.1 (mkBuf [0xFF]) 0 4 (mkBuf [0x00]) 0 6 (by decide),
    C4_out_of_range_preservation.2.2 (mkBuf [0xFF]) 1 (mkBuf [0xFF]) 0 4 0
      (mkBuf [0x00]) 6 (by decide) (by decide)⟩

/-- C5 counterexample: the allocating `BitmapOr` takes the aligned fast path,
which writes bytewise OR over the whole last byte; with all-ones inputs and
`length = 1`, bit 1 of the returned buffer — inside
`[oo + length, 8 * bytes_for_bits(oo + length))` — is 1, not 0. -/
theorem C5_counterexample :
    getBit (BitmapOrNew (mkBuf [0xFF]) 0 (mkBuf [0xFF]) 0 1 0) 1 = true := by
  decide

/-- C5 (amended): the buffer returned by the allocating combinators has every
bit of the prefix `[0, oo)` and the tail `[oo + length,
8 * bytes_for_bits(oo + length))` equal to zero, except — forced by the
counterexample — bits inside the aligned-fast-path do-not-care byte window
when all three offsets are congruent mod 8. -/
theorem C5_canonical_output :
    ∀ (left : Buf) (lo : Nat) (right : Buf) (ro length oo j : Nat),
      (j < oo ∨ (oo + length ≤ j ∧ j < 8 * bytesForBits (oo + length))) →
      ¬((oo % 8 = lo % 8 ∧ oo % 8 = ro % 8) ∧ 8 * (oo / 8) ≤ j ∧
        j < 8 * (oo / 8) + 8 * bytesForBits (length + lo % 8)) →
      getBit (BitmapAndNew left lo right ro length oo) j = false ∧
      getBit (BitmapOrNew left lo right ro length oo) j = false ∧
      getBit (BitmapXorNew left lo right ro length oo) j = false := by
  intro left lo right ro length oo j hj hexc
  refine ⟨?_, ?_, ?_⟩
  · rw [BitmapAndNew, BitmapOpNew, BitmapOp_getBit _ _ testBit_land_bool rfl,
      if_neg hexc, if_neg (show ¬(oo ≤ j ∧ j < oo + length) by omega), getBit_zeroBuf]
  · rw [BitmapOrNew, BitmapOpNew, BitmapOp_getBit _ _ testBit_lor_bool rfl,
      if_neg hexc, if_neg (show ¬(oo ≤ j ∧ j < oo + length) by omega), getBit_zeroBuf]
  · rw [BitmapXorNew, BitmapOpNew, BitmapOp_getBit _ _ testBit_xor_bool rfl,
      if_neg hexc, if_neg (show ¬(oo ≤ j ∧ j < oo + length) by omega), getBit_zeroBuf]

/-- C5 witness: the amended invariant at a concrete offset-skewed instance
(`lo = 1`, `ro = oo = 0`, `length = 1`, tail bit 5). -/
theorem C5_canonical_output_witness :
    getBit (BitmapAndNew (mkBuf [0xFF]) 1 (mkBuf [0xFF]) 0 1 0) 5 = false ∧
    getBit (BitmapOrNew (mkBuf [0xFF]) 1 (mkBuf [0xFF]) 0 1 0) 5 = false ∧
    getBit (BitmapXorNew (mkBuf [0xFF]) 1 (mkBuf [0xFF]) 0 1 0) 5 = false :=
  C5_canonical_output (mkBuf [0xFF]) 1 (mkBuf [0xFF]) 0 1 0 5 (by decide) (by decide)

/-- C6 counterexample: in-place OR of `[0x0A]` and `[0x05]` at `length = 4`,
`out_offset = 4` into `out = [0xF0]` leaves `out[0] = 0xF0`, not `0xFF`: the
preserved low nibble of `0xF0` is zero, so the byte cannot become `0xFF`. -/
theorem C6_counterexample :
    loadByte (BitmapOr (mkBuf [0x0A]) 0 (mkBuf [0x05]) 0 4 4 (mkBuf [0xF0])) 0 ≠ 0xFF ∧
    loadByte (BitmapOr (mkBuf [0x0A]) 0 (mkBuf [0x05]) 0 4 4 (mkBuf [0xF0])) 0 = 0xF0 := by
  exact ⟨by decide, by decide⟩

/-- C6 (amended): the same call writes bits `[4, 8)` = `1111` into `out`
while preserving out's low nibble, and afterwards `out[0] == 0xF0` (the low
nibble of `0xF0` being zero). -/
theorem C6_or_inplace_scenario :
    bitsRange (BitmapOr (mkBuf [0x0A]) 0 (mkBuf [0x05]) 0 4 4 (mkBuf [0xF0])) 4 4 =
      [true, true, true, true] ∧
    bitsRange (BitmapOr (mkBuf [0x0A]) 0 (mkBuf [0x05]) 0 4 4 (mkBuf [0xF0])) 0 4 =
      bitsRange (mkBuf [0xF0]) 0 4 ∧
    loadByte (BitmapOr (mkBuf [0x0A]) 0 (mkBuf [0x05]) 0 4 4 (mkBuf [0xF0])) 0 = 0xF0 := by
  exact ⟨by decide, by decide, by decide⟩

/-- C7: the buffers returned by the allocating `CopyBitmap` / `InvertBitmap`
carry the source bits (respectively their complements) at `[0, length)` and
zeros at `[length, 8 * bytes_for_bits(length))`; in particular
`invert_to_new([0xA5], 0, 8)` returns `[0x5A]` and with length 5 returns
`[0x1A]`. -/
theorem C7_to_new_canonical :
    (∀ (data : Buf) (offset length : Nat),
      bitsRange (CopyBitmapNew data offset length) 0 length =
        bitsRange data offset length) ∧
    (∀ (data : Buf) (offset length : Nat),
      bitsRange (InvertBitmapNew data offset length) 0 length =
        (bitsRange data offset length).map not) ∧
    (∀ (data : Buf) (offset length : Nat),
      bitsRange (CopyBitmapNew data offset length) length
          (8 * bytesForBits length - length) =
        List.replicate (8 * bytesForBits length - length) false) ∧
    (∀ (data : Buf) (offset length : Nat),
      bitsRange (InvertBitmapNew data offset length) length
          (8 * bytesForBits length - length) =
        List.replicate (8 * bytesForBits length - length) false) ∧
    loadByte (InvertBitmapNew (mkBuf [0xA5]) 0 8) 0 = 0x5A ∧
    loadByte (InvertBitmapNew (mkBuf [0xA5]) 0 5) 0 = 0x1A := by
  refine ⟨fun data offset length => ?_, fun data offset length => ?_,
    fun data offset length => ?_, fun data offset length => ?_, by decide, by decide⟩
  · refine bitsRange_congr length (fun i hi => ?_)
    rw [CopyBitmapNew, TransferBitmapNew_getBit, if_pos (show 0 + i < length by omega),
      Bool.false_xor, Nat.zero_add]
  · rw [bitsRange, bitsRange, List.map_map]
    refine List.map_congr_left (fun i hi => ?_)
    have hi' := List.mem_range.mp hi
    show getBit (InvertBitmapNew data offset length) (0 + i) = ! getBit data (offset + i)
    rw [InvertBitmapNew, TransferBitmapNew_getBit, if_pos (show 0 + i < length by omega),
      Bool.true_xor, Nat.zero_add]
  · refine bitsRange_eq_replicate_false _ (fun i hi => ?_)
    rw [CopyBitmapNew, TransferBitmapNew_getBit, if_neg (show ¬(length + i < length) by
      omega)]
  · refine bitsRange_eq_replicate_false _ (fun i hi => ?_)
    rw [InvertBitmapNew, TransferBitmapNew_getBit, if_neg (show ¬(length + i < length) by
      omega)]

/-- C8: `BitmapEquals(left, lo, right, ro, length)` returns true exactly when
bit `lo + i` of `left` equals bit `ro + i` of `right` for every `i < length`;
consequently it is reflexive and symmetric. -/
theorem C8_equals_correct :
    (∀ (left : Buf) (lo : Nat) (right : Buf) (ro n : Nat),
      BitmapEquals left lo right ro n = equalsRef left lo right ro n) ∧
    (∀ (x : Buf) (xo n : Nat), BitmapEquals x xo x xo n = true) ∧
    (∀ (a : Buf) (ao : Nat) (b : Buf) (bo n : Nat),
      BitmapEquals a ao b bo n = BitmapEquals b bo a ao n) := by
  refine ⟨fun left lo right ro n => ?_, fun x xo n => ?_, fun a ao b bo n => ?_⟩
  · exact bool_eq_of_iff ((BitmapEquals_iff left lo right ro n).trans
      (equalsRef_iff left lo right ro n).symm)
  · exact (BitmapEquals_iff x xo x xo n).mpr (fun i _ => rfl)
  · refine bool_eq_of_iff ((BitmapEquals_iff a ao b bo n).trans
      (Iff.trans ⟨fun h i hi => (h i hi).symm, fun h i hi => (h i hi).symm⟩
        (BitmapEquals_iff b bo a ao n).symm))

/-- C9: the in-place AND/OR/XOR combinators are commutative on the output
range, and chaining two calls associates: combining `op(a,b)` with `c`
produces the same output-range bits as combining `a` with `op(b,c)`,
regardless of the intermediate offsets and buffers. -/
theorem C9_comm_assoc :
    (∀ (a : Buf) (ao : Nat) (b : Buf) (bo len oo : Nat) (out : Buf),
      bitsRange (BitmapAnd a ao b bo len oo out) oo len =
        bitsRange (BitmapAnd b bo a ao len oo out) oo len ∧
      bitsRange (BitmapOr a ao b bo len oo out) oo len =
        bitsRange (BitmapOr b bo a ao len oo out) oo len ∧
      bitsRange (BitmapXor a ao b bo len oo out) oo len =
        bitsRange (BitmapXor b bo a ao len oo out) oo len) ∧
    (∀ (a : Buf) (ao : Nat) (b : Buf) (bo : Nat) (c : Buf) (co len abo bco oo : Nat)
        (out1 out2 out3 out4 : Buf),
      bitsRange (BitmapAnd (BitmapAnd a ao b bo len abo out1) abo c co len oo out2)
          oo len =
        bitsRange (BitmapAnd a ao (BitmapAnd b bo c co len bco out3) bco len oo out4)
          oo len ∧
      bitsRange (BitmapOr (BitmapOr a ao b bo len abo out1) abo c co len oo out2)
          oo len =
        bitsRange (BitmapOr a ao (BitmapOr b bo c co len bco out3) bco len oo out4)
          oo len ∧
      bitsRange (BitmapXor (BitmapXor a ao b bo len abo out1) abo c co len oo out2)
          oo len =
        bitsRange (BitmapXor a ao (BitmapXor b bo c co len bco out3) bco len oo out4)
          oo len) := by
  constructor
  · intro a ao b bo len oo out
    refine ⟨bitsRange_congr len (fun i hi => ?_), bitsRange_congr len (fun i hi => ?_),
      bitsRange_congr len (fun i hi => ?_)⟩
    · simp only [BitmapAnd]
      rw [BitmapOp_getBit_range _ _ testBit_land_bool rfl _ _ _ _ _ _ _ i hi,
        BitmapOp_getBit_range _ _ testBit_land_bool rfl _ _ _ _ _ _ _ i hi]
      exact Bool.and_comm _ _
    · simp only [BitmapOr]
      rw [BitmapOp_getBit_range _ _ testBit_lor_bool rfl _ _ _ _ _ _ _ i hi,
        BitmapOp_getBit_range _ _ testBit_lor_bool rfl _ _ _ _ _ _ _ i hi]
      exact Bool.or_comm _ _
    · simp only [BitmapXor]
      rw [BitmapOp_getBit_range _ _ testBit_xor_bool rfl _ _ _ _ _ _ _ i hi,
        BitmapOp_getBit_range _ _ testBit_xor_bool rfl _ _ _ _ _ _ _ i hi]
      exact Bool.xor_comm _ _
  · intro a ao b bo c co len abo bco oo out1 out2 out3 out4
    refine ⟨bitsRange_congr len (fun i hi => ?_), bitsRange_congr len (fun i hi => ?_),
      bitsRange_congr len (fun i hi => ?_)⟩
    · simp only [BitmapAnd]
      rw [BitmapOp_getBit_range _ _ testBit_land_bool rfl _ _ _ _ _ _ _ i hi,
        BitmapOp_getBit_range _ _ testBit_land_bool rfl _ _ _ _ _ _ _ i hi,
        BitmapOp_getBit_range _ _ testBit_land_bool rfl _ _ _ _ _ _ _ i hi,
        BitmapOp_getBit_range _ _ testBit_land_bool rfl _ _ _ _ _ _ _ i hi]
      exact Bool.and_assoc _ _ _
    · simp only [BitmapOr]
      rw [BitmapOp_getBit_range _ _ testBit_lor_bool rfl _ _ _ _ _ _ _ i hi,
        BitmapOp_getBit_range _ _ testBit_lor_bool rfl _ _ _ _ _ _ _ i hi,
        BitmapOp_getBit_range _ _ testBit_lor_bool rfl _ _ _ _ _ _ _ i hi,
        BitmapOp_getBit_range _ _ testBit_lor_bool rfl _ _ _ _ _ _ _ i hi]
      exact Bool.or_assoc _ _ _
    · simp only [BitmapXor]
      rw [BitmapOp_getBit_range _ _ testBit_xor_bool rfl _ _ _ _ _ _ _ i hi,
        BitmapOp_getBit_range _ _ testBit_xor_bool rfl _ _ _ _ _ _ _ i hi,
        BitmapOp_getBit_range _ _ testBit_xor_bool rfl _ _ _ _ _ _ _ i hi,
        BitmapOp_getBit_range _ _ testBit_xor_bool rfl _ _ _ _ _ _ _ i hi]
      exact Bool.xor_assoc _ _ _

/-- C10: with `length = 0` and arbitrary buffers and offsets, `CountSetBits`
returns 0, `BitmapEquals` returns true, and the in-place `CopyBitmap` and
`InvertBitmap` leave every destination bit unchanged. -/
theorem C10_zero_length :
    (∀ (data : Buf) (off : Nat), CountSetBits data off 0 = 0) ∧
    (∀ (l : Buf) (lo : Nat) (r : Buf) (ro : Nat), BitmapEquals l lo r ro 0 = true) ∧
    (∀ (data : Buf) (offset : Nat) (dest : Buf) (dest_offset : Nat) (restore : Bool)
        (j : Nat),
      getBit (CopyBitmap data offset 0 dest dest_offset restore) j = getBit dest j) ∧
    (∀ (data : Buf) (offset : Nat) (dest : Buf) (dest_offset j : Nat),
      getBit (InvertBitmap data offset 0 dest dest_offset) j = getBit dest j) := by
  have h0 : bytesForBits 0 = 0 := rfl
  refine ⟨fun data off => ?_, fun l lo r ro => ?_,
    fun data offset dest dest_offset restore j => ?_,
    fun data offset dest dest_offset j => ?_⟩
  · rw [CountSetBits_eq, countRef_zero]
  · exact (BitmapEquals_iff l lo r ro 0).mpr (fun i hi => absurd hi (by omega))
  · rw [CopyBitmap, TransferBitmap_getBit,
      if_neg (show ¬(dest_offset ≤ j ∧ j < dest_offset + 0) by omega),
      if_neg (show ¬(restore = false ∧ offset % 8 = 0 ∧ dest_offset % 8 = 0 ∧
        dest_offset + 0 ≤ j ∧ j < dest_offset + 8 * bytesForBits 0) from by
        rintro ⟨_, _, _, h1, h2⟩; omega)]
  · rw [InvertBitmap, TransferBitmap_getBit,
      if_neg (show ¬(dest_offset ≤ j ∧ j < dest_offset + 0) by omega),
      if_neg (show ¬((true = false) ∧ offset % 8 = 0 ∧ dest_offset % 8 = 0 ∧
        dest_offset + 0 ≤ j ∧ j < dest_offset + 8 * bytesForBits 0) from by
        rintro ⟨hx, _⟩; exact absurd hx (by decide))]

end ArrowBitmap
